import Mathlib

/-!
Verification of the fiddle overlap-partitioning and interaction core.

This file gives a shallow embedding, in Lean 4, of the components of the
fiddle repository that the verified claims concern:

* the axis-aligned bounding-box intersection predicate
  (source/grid/overlap_tria.cc, function intersects);
* the overlap-triangulation construction
  (OverlapTriangulation::reinit and reinit_overlapping_tria);
* the distributed DOF-translation protocol
  (source/transfer/overlap_partitioning_tools.cc,
  compute_overlap_to_native_dof_translation);
* the Scatter communication object and the Transaction state machine
  (whose implementations are not part of the sources at hand; they are
  modelled from the specification, and marked as such).

Conventions of the embedding:

* machine real numbers (double) are idealised as rational numbers;
* the embedding is specialised to dim = spacedim = 2, the principal
  template instantiation of the source (quadrilateral cells, four
  isotropic children, deal.II vertex/child ordering);
* deal.II mesh primitives (create_triangulation,
  execute_coarsening_and_refinement) are modelled by deterministic
  functions: refining a quadrilateral produces the four bilinear
  sub-quadrilaterals, children inherit material ids and face boundary
  ids according to the deal.II rules;
* debug assertions (Assert) are modelled as checked failures: a model
  function returns an Option/Except value and a failing assertion is
  the none/error case.
-/

namespace Fdl

/-! ## Axis-aligned bounding boxes and the intersection predicate

Embedding of the function intersects(a, b) of overlap_tria.cc.  A
dealii::BoundingBox in spacedim dimensions is a pair of corner points;
we represent it by its per-axis lower and upper bounds. -/

/-- An axis-aligned box in n dimensions: per-axis lower and upper bounds. -/
structure Box (n : ℕ) where
  lower : Fin n → ℚ
  upper : Fin n → ℚ

/-- The per-axis test of intersects: the loop body of overlap_tria.cc
lines 18-38 continues (does not return false) for axis d exactly when
this disjunction holds.  The three disjuncts are transcribed from the
source condition. -/
def axisCheck {n : ℕ} (a b : Box n) (d : Fin n) : Bool :=
  ((a.lower d ≤ b.lower d && b.lower d ≤ a.upper d) ||
   (a.lower d ≤ b.upper d && b.upper d ≤ a.upper d)) ||
  (b.lower d ≤ a.lower d && a.lower d ≤ b.upper d)

/-- Embedding of intersects(a, b): the loop over coordinate axes returns
false as soon as one axis fails axisCheck, and true if every axis
passes. -/
def intersects {n : ℕ} (a b : Box n) : Bool :=
  (List.finRange n).all (fun d => axisCheck a b d)

/-! ## Kernel-computable rational helpers

The arithmetic operations on ℚ installed by the library are declared
irreducible, so a model built directly on them could not be evaluated
on concrete inputs inside the kernel.  The geometric model therefore
uses mkRat-based operations; midQ_eq identifies midQ with the intended
arithmetic midpoint. -/

/-- Midpoint of two rationals, written with mkRat so that it evaluates
by kernel reduction. -/
def midQ (a b : ℚ) : ℚ :=
  mkRat (a.num * (b.den : ℤ) + b.num * (a.den : ℤ)) (2 * (a.den * b.den))

/-! ## Geometry of quadrilateral cells (dim = spacedim = 2)

Vertex numbering follows deal.II: v0 bottom-left, v1 bottom-right,
v2 top-left, v3 top-right.  Face numbering: 0 left, 1 right, 2 bottom,
3 top.  Isotropic refinement produces four children numbered 0
bottom-left, 1 bottom-right, 2 top-left, 3 top-right. -/

/-- A point of the plane. -/
abbrev Pt : Type := ℚ × ℚ

/-- Midpoint of two points. -/
def midPt (p q : Pt) : Pt := (midQ p.1 q.1, midQ p.2 q.2)

/-- A quadrilateral cell, by its four vertices in deal.II order. -/
structure Quad where
  v0 : Pt
  v1 : Pt
  v2 : Pt
  v3 : Pt
deriving DecidableEq

/-- Coordinate d of a point. -/
def coord (p : Pt) (d : Fin 2) : ℚ :=
  if d.val = 0 then p.1 else p.2

/-- Bounding box of a quadrilateral (the per-axis min/max of its
vertices), modelling cell->bounding_box(). -/
def quadBBox (q : Quad) : Box 2 where
  lower := fun d => min (min (coord q.v0 d) (coord q.v1 d)) (min (coord q.v2 d) (coord q.v3 d))
  upper := fun d => max (max (coord q.v0 d) (coord q.v1 d)) (max (coord q.v2 d) (coord q.v3 d))

/-- Child i of an isotropically refined quadrilateral: the bilinear
sub-quadrilateral, as produced by deal.II refinement of a quad
(edge midpoints and the cell midpoint become new vertices). -/
def refineQuad (q : Quad) (i : Fin 4) : Quad :=
  let m01 := midPt q.v0 q.v1
  let m23 := midPt q.v2 q.v3
  let m02 := midPt q.v0 q.v2
  let m13 := midPt q.v1 q.v3
  let c := midPt m01 m23
  match i with
  | 0 => ⟨q.v0, m01, m02, c⟩
  | 1 => ⟨m01, q.v1, c, m13⟩
  | 2 => ⟨m02, c, q.v2, m23⟩
  | 3 => ⟨c, m13, m23, q.v3⟩

/-- Boundary indicators of the four faces of a cell (left, right,
bottom, top). -/
structure Bdry where
  f0 : ℕ
  f1 : ℕ
  f2 : ℕ
  f3 : ℕ
deriving DecidableEq

/-- The deal.II boundary id of faces interior to the mesh
(numbers::internal_face_boundary_id). -/
def internalFaceId : ℕ := 4294967295

/-- Face boundary ids of child i after isotropic refinement: outer
child faces inherit the containing parent face's boundary id, the new
interior faces get the internal face id.  Both the native mesh and the
overlap mesh are refined by the same deal.II machinery, so the same
rule applies to both. -/
def refineBdry (b : Bdry) (i : Fin 4) : Bdry :=
  match i with
  | 0 => ⟨b.f0, internalFaceId, b.f2, internalFaceId⟩
  | 1 => ⟨internalFaceId, b.f1, b.f2, internalFaceId⟩
  | 2 => ⟨b.f0, internalFaceId, internalFaceId, b.f3⟩
  | 3 => ⟨internalFaceId, b.f1, internalFaceId, b.f3⟩

/-! ## The native triangulation

A parallel::shared::Triangulation is modelled as a forest of cell
trees: every process sees the whole mesh.  A cell carries its
geometry, material id, face boundary ids and owning subdomain, and is
either active (a leaf) or isotropically refined into four children. -/

/-- Per-cell data of a native cell. -/
structure CellData where
  geom : Quad
  material : ℕ
  bdry : Bdry
  owner : ℕ
deriving DecidableEq

/-- A native cell: a leaf (active cell) or an isotropically refined
cell with four children in deal.II child order. -/
inductive NativeCell where
  | leaf (d : CellData)
  | node (d : CellData) (c0 c1 c2 c3 : NativeCell)
deriving DecidableEq

/-- The coarse cells of the native triangulation. -/
abbrev NativeTria : Type := List NativeCell

/-- Data stored on a native cell. -/
def NativeCell.cdata : NativeCell → CellData
  | .leaf d => d
  | .node d _ _ _ _ => d

/-- Is the cell active (has no children)? -/
def NativeCell.isLeafB : NativeCell → Bool
  | .leaf _ => true
  | .node _ _ _ _ _ => false

/-- Number of refinement levels of the subtree rooted at a cell. -/
def NativeCell.depth : NativeCell → ℕ
  | .leaf _ => 1
  | .node _ c0 c1 c2 c3 =>
      1 + max (max c0.depth c1.depth) (max c2.depth c3.depth)

/-- Number of levels of the triangulation (n_levels()). -/
def nLevelsTria (t : NativeTria) : ℕ :=
  t.foldr (fun n acc => max n.depth acc) 0

/-- Child i of a cell (none for an active cell or an index past 3). -/
def childAt : NativeCell → ℕ → Option NativeCell
  | .leaf _, _ => none
  | .node _ c0 _ _ _, 0 => some c0
  | .node _ _ c1 _ _, 1 => some c1
  | .node _ _ _ c2 _, 2 => some c2
  | .node _ _ _ _ c3, 3 => some c3
  | .node _ _ _ _ _, _ + 4 => none

/-- The descendant of a cell along a path of child indices. -/
def subCellAt (n : NativeCell) : List ℕ → Option NativeCell
  | [] => some n
  | i :: p => (childAt n i).bind (fun c => subCellAt c p)

/-- The cell of the triangulation identified by a path: the head is
the coarse-cell index, the tail the child indices. -/
def cellAt (t : NativeTria) (path : List ℕ) : Option NativeCell :=
  match path with
  | [] => none
  | i :: p =>
      match t.get? i with
      | some n => subCellAt n p
      | none => none

/-- All (path, cell) pairs at depth l below a cell, in deal.II
within-level iteration order. -/
def subPathsOnLevel : NativeCell → ℕ → List (List ℕ × NativeCell)
  | n, 0 => [([], n)]
  | .leaf _, _ + 1 => []
  | .node _ c0 c1 c2 c3, l + 1 =>
      (subPathsOnLevel c0 l).map (fun pc => (0 :: pc.1, pc.2)) ++
      (subPathsOnLevel c1 l).map (fun pc => (1 :: pc.1, pc.2)) ++
      (subPathsOnLevel c2 l).map (fun pc => (2 :: pc.1, pc.2)) ++
      (subPathsOnLevel c3 l).map (fun pc => (3 :: pc.1, pc.2))

/-- All (path, cell) pairs on one level of the triangulation, in
iteration order (cell_iterators_on_level). -/
def cellsOnLevelAux : NativeTria → ℕ → ℕ → List (List ℕ × NativeCell)
  | [], _, _ => []
  | n :: rest, i, l =>
      (subPathsOnLevel n l).map (fun pc => (i :: pc.1, pc.2)) ++
      cellsOnLevelAux rest (i + 1) l

/-- Cells on level l of the triangulation, with their paths. -/
def cellsOnLevel (t : NativeTria) (l : ℕ) : List (List ℕ × NativeCell) :=
  cellsOnLevelAux t 0 l

/-- Paths of the active cells of the triangulation, in deal.II active
iteration order (level-major); the position of a path in this list is
the cell's active_cell_index. -/
def activePaths (t : NativeTria) : List (List ℕ) :=
  (List.range (nLevelsTria t)).flatMap
    (fun l => ((cellsOnLevel t l).filter (fun pc => pc.2.isLeafB)).map (fun pc => pc.1))

/-- The active_cell_index of the native cell with the given path. -/
def nativeActiveIndex (t : NativeTria) (p : List ℕ) : ℕ :=
  (activePaths t).indexOf p

/-- Well-formedness of a native cell tree: children were produced by
the (deterministic) deal.II refinement of their parent, i.e. child
geometry is the bilinear sub-quadrilateral and child face boundary ids
follow the inheritance rule.  This holds of any mesh built by deal.II
isotropic refinement of a coarse mesh with flat manifolds. -/
def wfCell : NativeCell → Bool
  | .leaf _ => true
  | .node d c0 c1 c2 c3 =>
      (c0.cdata.geom == refineQuad d.geom 0) && (c0.cdata.bdry == refineBdry d.bdry 0) &&
      (c1.cdata.geom == refineQuad d.geom 1) && (c1.cdata.bdry == refineBdry d.bdry 1) &&
      (c2.cdata.geom == refineQuad d.geom 2) && (c2.cdata.bdry == refineBdry d.bdry 2) &&
      (c3.cdata.geom == refineQuad d.geom 3) && (c3.cdata.bdry == refineBdry d.bdry 3) &&
      wfCell c0 && wfCell c1 && wfCell c2 && wfCell c3

/-- Well-formedness of the native triangulation. -/
def wfTria (t : NativeTria) : Bool :=
  t.all wfCell

/-! ## The overlap triangulation

Model of OverlapTriangulation::reinit_overlapping_tria.  The level
loop of the source processes every overlap cell exactly once (cells on
level l are visited at iteration l, and refinement only creates cells
on the next level), so it is modelled as structural recursion over the
native tree: a cell whose bounding box intersects a patch box is
resident (subdomain id 0) and is refined whenever its native
counterpart is; a cell that intersects no patch box is marked
artificial and is never refined.  Children record their native
counterpart (paired by child index within the parent) and receive the
native child's material id if the native child is active; otherwise
they keep the inherited id, exactly as in the source pairing loop. -/

/-- Does the bounding box intersect one of the patch boxes
(the intersects_patches lambda of reinit_overlapping_tria)? -/
def intersectsAny (patches : List (Box 2)) (bb : Box 2) : Bool :=
  patches.any (fun pb => intersects bb pb)

/-- The deal.II artificial subdomain id
(numbers::artificial_subdomain_id). -/
def artificialSubdomainId : ℕ := 4294967294

/-- Data carried by an overlap cell: geometry, material id, face
boundary ids, subdomain id, and the path of the native cell it
mirrors (the model of the user_index slot into the native_cells
table resolved through get_native_cell). -/
structure OData where
  geom : Quad
  material : ℕ
  bdry : Bdry
  subdomain : ℕ
  native : List ℕ
deriving DecidableEq

/-- An overlap cell: a leaf (active) or a refined cell with four
children. -/
inductive OCell where
  | leaf (d : OData)
  | node (d : OData) (c0 c1 c2 c3 : OCell)
deriving DecidableEq

/-- Material id given to a newly created overlap child: the native
child's material id if the native child is active, otherwise the id
inherited from the overlap parent (the source copies material ids in
the pairing loop only when native_child->is_active()). -/
def childMaterial (inherited : ℕ) (c : NativeCell) : ℕ :=
  if c.isLeafB then c.cdata.material else inherited

/-- Recursive construction of the overlap cell mirroring native cell n
with path p, given the geometry, material id and boundary ids the
overlap cell has at creation time. -/
def buildOverlap (patches : List (Box 2)) :
    NativeCell → List ℕ → Quad → ℕ → Bdry → OCell
  | n, p, g, m, b =>
    if intersectsAny patches (quadBBox g) then
      match n with
      | .leaf _ => .leaf ⟨g, m, b, 0, p⟩
      | .node _ c0 c1 c2 c3 =>
          .node ⟨g, m, b, 0, p⟩
            (buildOverlap patches c0 (p ++ [0]) (refineQuad g 0) (childMaterial m c0) (refineBdry b 0))
            (buildOverlap patches c1 (p ++ [1]) (refineQuad g 1) (childMaterial m c1) (refineBdry b 1))
            (buildOverlap patches c2 (p ++ [2]) (refineQuad g 2) (childMaterial m c2) (refineBdry b 2))
            (buildOverlap patches c3 (p ++ [3]) (refineQuad g 3) (childMaterial m c3) (refineBdry b 3))
    else
      .leaf ⟨g, m, b, artificialSubdomainId, p⟩

/-- Model of reinit_overlapping_tria: find the coarsest level with an
active cell intersecting the patches (the Assert fails, i.e. the model
returns none, when there is none); seed the overlap mesh with the
intersecting cells of that level, copying geometry, material id and
face boundary ids from the native cells; then refine level by level
following the native tree. -/
def reinitModel (t : NativeTria) (patches : List (Box 2)) : Option (List OCell) :=
  let coarsest := (List.range (nLevelsTria t)).find?
    (fun l => (cellsOnLevel t l).any
      (fun pc => pc.2.isLeafB && intersectsAny patches (quadBBox pc.2.cdata.geom)))
  match coarsest with
  | none => none
  | some level =>
      some (((cellsOnLevel t level).filter
          (fun pc => intersectsAny patches (quadBBox pc.2.cdata.geom))).map
        (fun pc => buildOverlap patches pc.2 pc.1 pc.2.cdata.geom pc.2.cdata.material pc.2.cdata.bdry))

/-- The data of the active cells of an overlap cell tree. -/
def activesData : OCell → List OData
  | .leaf d => [d]
  | .node _ c0 c1 c2 c3 =>
      activesData c0 ++ activesData c1 ++ activesData c2 ++ activesData c3

/-- The data of all cells (active or not) of an overlap cell tree. -/
def allData : OCell → List OData
  | .leaf d => [d]
  | .node d c0 c1 c2 c3 =>
      d :: (allData c0 ++ allData c1 ++ allData c2 ++ allData c3)

/-- The data of the active cells of the whole overlap mesh. -/
def meshActives (mesh : List OCell) : List OData :=
  mesh.flatMap activesData

/-- The data of all cells of the whole overlap mesh. -/
def meshAllData (mesh : List OCell) : List OData :=
  mesh.flatMap allData

/-- Model of OverlapTriangulation::locally_owned_subdomain(), which
the source overrides to return 0. -/
def overlapLocallyOwnedSubdomain : ℕ := 0

/-- Model of cell->is_locally_owned() on the overlap triangulation:
deal.II compares the cell's subdomain id with the triangulation's
locally_owned_subdomain(). -/
def isCellLocallyOwned (d : OData) : Bool :=
  d.subdomain == overlapLocallyOwnedSubdomain

/-- Model of the cache cell_iterators_in_active_native_order set up by
OverlapTriangulation::reinit: the active overlap cells whose subdomain
id is not artificial, sorted by native active_cell_index. -/
def cellsInActiveNativeOrder (t : NativeTria) (mesh : List OCell) : List OData :=
  List.insertionSort
    (fun x y => nativeActiveIndex t x.native ≤ nativeActiveIndex t y.native)
    ((meshActives mesh).filter (fun d => d.subdomain != artificialSubdomainId))

/-! ## The DOF-translation protocol

Embedding of compute_overlap_to_native_dof_translation
(overlap_partitioning_tools.cc).  DOF indices and active cell indices
are natural numbers; the per-process data of the exchange rounds is
passed explicitly. -/

/-- The sentinel numbers::invalid_dof_index terminating each per-cell
record (types::global_dof_index is a 64-bit unsigned integer and the
invalid value is its maximum). -/
def invalidDofIndex : ℕ := 18446744073709551615

/-- Step 1 (lines 42-56): the request list sent to one owning process,
built from the (owner, native active cell index) pairs contributed by
the locally owned overlap cells: the indices whose native cell belongs
to that owner, sorted.  std::sort is modelled by insertion sort. -/
def requestsForOwner (pairs : List (ℕ × ℕ)) (owner : ℕ) : List ℕ :=
  List.insertionSort (· ≤ ·) ((pairs.filter (fun rc => rc.1 == owner)).map (fun rc => rc.2))

/-- The (owner, native active cell index) pairs contributed by the
locally owned active cells of the overlap mesh (lines 45-54: the owner
is the native cell's subdomain id, the index its active cell index). -/
def residentCellRequests (t : NativeTria) (mesh : List OCell) : List (ℕ × ℕ) :=
  ((meshActives mesh).filter (fun d => isCellLocallyOwned d)).map
    (fun d => (((cellAt t d.native).map (fun n => n.cdata.owner)).getD 0,
               nativeActiveIndex t d.native))

/-- Step 3 packing loop (lines 72-100): walk the process's active
cells (given as (active cell index, dof indices) pairs in iteration
order) once, against the cursor into the requested indices; a cell
whose index is not the currently requested one is skipped (continue);
a match packs the record [index, count, dofs..., sentinel] and
advances the cursor; the walk stops when the requests are
exhausted. -/
def packDofs : List (ℕ × List ℕ) → List ℕ → List ℕ
  | [], _ => []
  | _ :: _, [] => []
  | (i, dofs) :: cells, r :: rs =>
      if i = r then
        i :: dofs.length :: (dofs ++ invalidDofIndex :: packDofs cells rs)
      else
        packDofs cells (r :: rs)

/-- The packed reply record for one requested active cell index, as
the protocol describes it: the index, the dof count, the dof indices
and the terminating sentinel, with the dofs looked up in the
responder's cell list (empty when the index is not there). -/
def packedRecordSpec (cells : List (ℕ × List ℕ)) (r : ℕ) : List ℕ :=
  match cells.lookup r with
  | some dofs => r :: dofs.length :: (dofs ++ [invalidDofIndex])
  | none => []

/-- Step 4 unpacking loop (lines 126-174): read a packed stream as
records [index, count, dofs..., sentinel]; for each record look up the
overlap cell with that native active cell index (the source uses
binary search in the pre-sorted cell list; the model looks the index
up in a table from native active cell index to the overlap cell's dof
indices) and pair the overlap cell's dofs with the received native
dofs in element-local order. -/
def parseRecords (table : List (ℕ × List ℕ)) : List ℕ → List (ℕ × ℕ)
  | [] => []
  | [_] => []
  | idx :: n :: rest =>
      (((table.lookup idx).getD []).zip (rest.take n)) ++
        parseRecords table ((rest.drop n).drop 1)
termination_by l => l.length
decreasing_by
  simp only [List.length_cons, List.length_drop]
  omega

/-- Final collapse (lines 175-190): sort the (overlap dof, native dof)
pairs by overlap dof index (std::sort with a comparator on the first
component, modelled by insertion sort), remove adjacent duplicate
pairs (std::unique, modelled by destutter with the inequality
relation), and keep the native components. -/
def collapsePairs (pairs : List (ℕ × ℕ)) : List ℕ :=
  ((List.insertionSort (fun a b : ℕ × ℕ => a.1 ≤ b.1) pairs).destutter (· ≠ ·)).map
    (fun pr => pr.2)

/-- The two personalized all-to-all exchange rounds
(Utilities::MPI::some_to_some) of the protocol. -/
inductive CommEvent where
  | requestsExchange
  | dofsExchange
deriving DecidableEq

/-- The phase structure of compute_overlap_to_native_dof_translation,
at the granularity of its communication rounds: step 1 groups and
sorts the requests locally; the first some_to_some (lines 59-62)
exchanges them; step 3 begins by asserting that both DoFHandlers use
the same finite element (lines 67-69) and then packs the requested
dofs; the second some_to_some (lines 102-104) returns the packed
records; step 4 unpacks and collapses them.  The returned event list
records which exchange rounds ran before the function produced its
result (or failed on the finite-element assertion). -/
def translationRun (feOverlap feNative : String) (resident : List (ℕ × ℕ))
    (owners : List ℕ) (ownedCells : ℕ → List (ℕ × List ℕ))
    (overlapTable : List (ℕ × List ℕ)) :
    List CommEvent × Except String (List ℕ) :=
  let requests := fun o => requestsForOwner resident o
  let log := [CommEvent.requestsExchange]
  if feOverlap ≠ feNative then
    (log, Except.error "dof handlers should use the same FiniteElement")
  else
    let packed := owners.flatMap (fun o => packDofs (ownedCells o) (requests o))
    (log ++ [CommEvent.dofsExchange],
     Except.ok (collapsePairs (parseRecords overlapTable packed)))

/-! ## The Scatter object

Modelled from the spec: the implementation (source/transfer/scatter.cc)
is not among the sources at hand, only its uses; the spec describes a
Scatter built from an index map (overlap index to native global index)
with a native-to-overlap round trip that overwrites the overlap buffer
and an overlap-to-native round trip that either overwrites or
accumulates into the native vector.  Vectors are lists of rationals;
entry j of the native vector is read/written through the index map. -/

/-- Modelled from the spec: the native-to-overlap transfer; the overlap
buffer receives, at overlap position i, the native entry at the mapped
index (overwrite semantics). -/
def globalToOverlap (v : List ℚ) (idx : List ℕ) : List ℚ :=
  idx.map (fun j => v.getD j 0)

/-- Modelled from the spec: the overlap-to-native transfer with
overwrite semantics: each overlap entry is written into the native
vector at its mapped index. -/
def overlapToGlobalInsert (idx : List ℕ) (buf : List ℚ) (v : List ℚ) : List ℚ :=
  (idx.zip buf).foldl (fun acc jx => acc.set jx.1 jx.2) v

/-- Modelled from the spec: the overlap-to-native transfer with
accumulation semantics: each overlap entry is added into the native
vector at its mapped index (spreading is a reduction). -/
def overlapToGlobalAdd (idx : List ℕ) (buf : List ℚ) (v : List ℚ) : List ℚ :=
  (idx.zip buf).foldl (fun acc jx => acc.set jx.1 (acc.getD jx.1 0 + jx.2)) v

/-! ## The Transaction state machine

Modelled from the spec: the Transaction type of interaction_base.h
carries a next_state field ranging over Start, Intermediate, Finish,
Done and an operation tag (Interpolation or Spreading), both "used for
consistency checking"; the phase functions that perform the checks
(interaction_base.cc) are not among the sources at hand.  Following
the spec, each phase call checks that the transaction expects this
phase and carries the matching operation tag, and a violated check is
a fatal precondition violation (the model returns none). -/

/-- Phases of a transaction (Transaction::State). -/
inductive TransactionState where
  | Start
  | Intermediate
  | Finish
  | Done
deriving DecidableEq

/-- Operation tag of a transaction (Transaction::Operation). -/
inductive TransactionOperation where
  | Interpolation
  | Spreading
deriving DecidableEq

/-- The consistency-checking state of a transaction. -/
structure TransactionModel where
  next_state : TransactionState
  operation : TransactionOperation
deriving DecidableEq

/-- Modelled from the spec: a freshly created transaction for the
given operation expects its start phase next. -/
def newTransaction (op : TransactionOperation) : TransactionModel :=
  ⟨TransactionState.Start, op⟩

/-- Modelled from the spec: one phase call checks the operation tag
and the expected state and moves the transaction to the next state;
a failed check is a fatal precondition violation (none). -/
def phaseStep (expectedOp : TransactionOperation) (expected next : TransactionState)
    (tr : TransactionModel) : Option TransactionModel :=
  if tr.operation == expectedOp && tr.next_state == expected then
    some ⟨next, tr.operation⟩
  else
    none

/-- Modelled from the spec: the start phase of an operation. -/
def startPhase (op : TransactionOperation) (tr : TransactionModel) : Option TransactionModel :=
  phaseStep op TransactionState.Start TransactionState.Intermediate tr

/-- Modelled from the spec: the intermediate phase of an operation. -/
def intermediatePhase (op : TransactionOperation) (tr : TransactionModel) : Option TransactionModel :=
  phaseStep op TransactionState.Intermediate TransactionState.Finish tr

/-- Modelled from the spec: the finish phase of an operation; it
consumes the transaction, leaving it in the Done state in which no
further phase call is accepted. -/
def finishPhase (op : TransactionOperation) (tr : TransactionModel) : Option TransactionModel :=
  phaseStep op TransactionState.Finish TransactionState.Done tr

/-! ## A concrete native mesh

A small native triangulation used to evaluate the model on concrete
inputs: the square [0,16]^2, isotropically refined once; its
bottom-left child refined again; and the bottom-right grandchild
[4,8]x[0,4] refined a third time.  All children are built with
refineQuad/refineBdry, so the mesh is well-formed by construction.
The patch box is [0,3]x[0,10]: it meets the left column of cells but
not the refined grandchild [4,8]x[0,4]. -/

/-- Geometry of the coarse cell of the example mesh. -/
def exRootQuad : Quad :=
  ⟨((0 : ℚ), (0 : ℚ)), ((16 : ℚ), (0 : ℚ)), ((0 : ℚ), (16 : ℚ)), ((16 : ℚ), (16 : ℚ))⟩

/-- Boundary ids of the coarse cell of the example mesh. -/
def exRootBdry : Bdry := ⟨1, 2, 3, 4⟩

/-- The twice-refined grandchild [4,8]x[0,4] of the example mesh,
itself refined once more in the native mesh. -/
def exGrandchild1 : NativeCell :=
  let g := refineQuad (refineQuad exRootQuad 0) 1
  let b := refineBdry (refineBdry exRootBdry 0) 1
  .node ⟨g, 21, b, 0⟩
    (.leaf ⟨refineQuad g 0, 30, refineBdry b 0, 0⟩)
    (.leaf ⟨refineQuad g 1, 31, refineBdry b 1, 0⟩)
    (.leaf ⟨refineQuad g 2, 32, refineBdry b 2, 0⟩)
    (.leaf ⟨refineQuad g 3, 33, refineBdry b 3, 0⟩)

/-- The refined bottom-left child [0,8]^2 of the example mesh. -/
def exChild0 : NativeCell :=
  let g0 := refineQuad exRootQuad 0
  let b0 := refineBdry exRootBdry 0
  .node ⟨g0, 10, b0, 0⟩
    (.leaf ⟨refineQuad g0 0, 20, refineBdry b0 0, 0⟩)
    exGrandchild1
    (.leaf ⟨refineQuad g0 2, 22, refineBdry b0 2, 1⟩)
    (.leaf ⟨refineQuad g0 3, 23, refineBdry b0 3, 0⟩)

/-- The example native triangulation. -/
def exTria : NativeTria :=
  [.node ⟨exRootQuad, 5, exRootBdry, 0⟩
    exChild0
    (.leaf ⟨refineQuad exRootQuad 1, 11, refineBdry exRootBdry 1, 1⟩)
    (.leaf ⟨refineQuad exRootQuad 2, 12, refineBdry exRootBdry 2, 1⟩)
    (.leaf ⟨refineQuad exRootQuad 3, 13, refineBdry exRootBdry 3, 0⟩)]

/-- The example region of interest: the single patch box [0,3]x[0,10]. -/
def exPatches : List (Box 2) :=
  [⟨fun d => if d.val = 0 then (0 : ℚ) else (0 : ℚ),
    fun d => if d.val = 0 then (3 : ℚ) else (10 : ℚ)⟩]

/-- The overlap mesh the model produces on the example input. -/
def exMesh : List OCell :=
  (reinitModel exTria exPatches).getD []

/-- The active overlap cell of the example mesh sitting outside the
region of interest while its native counterpart is refined: the cell
mirroring the grandchild [4,8]x[0,4]. -/
def exBadCell : OData :=
  (meshActives exMesh).getD 1 ⟨exRootQuad, 0, exRootBdry, 0, []⟩

/-- The absolute tolerance 1e-12 of the vertex-coincidence claim. -/
def vertexTol : ℚ := mkRat 1 1000000000000

/-- Two points agree within eps in both coordinates. -/
def ptWithin (p q : Pt) (eps : ℚ) : Prop :=
  |p.1 - q.1| ≤ eps ∧ |p.2 - q.2| ≤ eps

/-- Two quadrilaterals have coincident vertices within eps. -/
def quadWithin (a c : Quad) (eps : ℚ) : Prop :=
  ptWithin a.v0 c.v0 eps ∧ ptWithin a.v1 c.v1 eps ∧
  ptWithin a.v2 c.v2 eps ∧ ptWithin a.v3 c.v3 eps

/-- The unit box, a concrete input for the intersection predicate. -/
def exUnitBox : Box 2 :=
  ⟨fun _ => (0 : ℚ), fun _ => (1 : ℚ)⟩

/-- A patch box far away from the example mesh. -/
def exFarPatches : List (Box 2) :=
  [⟨fun _ => (100 : ℚ), fun _ => (101 : ℚ)⟩]

/-! ## Theorems: kernel-computable midpoint -/

/-- midQ is the arithmetic midpoint. -/
theorem midQ_eq (a b : ℚ) : midQ a b = (a + b) / 2 := by
  rw [midQ, Rat.mkRat_eq_div]
  push_cast
  rw [div_eq_div_iff]
  · have hda : ((a.den : ℚ)) ≠ 0 := by
      exact_mod_cast a.den_nz
    have hdb : ((b.den : ℚ)) ≠ 0 := by
      exact_mod_cast b.den_nz
    have ha : (a.num : ℚ) = a * (a.den : ℚ) := (div_eq_iff hda).mp (Rat.num_div_den a)
    have hb : (b.num : ℚ) = b * (b.den : ℚ) := (div_eq_iff hdb).mp (Rat.num_div_den b)
    rw [ha, hb]
    ring
  · positivity
  · norm_num

/-! ## Theorems: the intersection predicate (C3) -/

/-- For well-formed bounds, the per-axis check holds exactly when the
projected closed intervals overlap. -/
theorem axisCheck_iff {n : ℕ} (a b : Box n) (d : Fin n)
    (ha : a.lower d ≤ a.upper d) (hb : b.lower d ≤ b.upper d) :
    axisCheck a b d = true ↔ (a.lower d ≤ b.upper d ∧ b.lower d ≤ a.upper d) := by
  simp only [axisCheck, Bool.or_eq_true, Bool.and_eq_true, decide_eq_true_eq]
  constructor
  · rintro ((⟨h1, h2⟩ | ⟨h1, h2⟩) | ⟨h1, h2⟩)
    · exact ⟨le_trans h1 hb, h2⟩
    · exact ⟨h1, le_trans hb h2⟩
    · exact ⟨h2, le_trans h1 ha⟩
  · rintro ⟨h1, h2⟩
    rcases le_total (a.lower d) (b.lower d) with h | h
    · exact Or.inl (Or.inl ⟨h, h2⟩)
    · exact Or.inr ⟨h, h1⟩

/-- The loop over axes accepts exactly when every axis check passes. -/
theorem intersects_eq_all {n : ℕ} (a b : Box n) :
    intersects a b = true ↔ ∀ d, axisCheck a b d = true := by
  simp only [intersects, List.all_eq_true]
  exact ⟨fun h d => h d (List.mem_finRange d), fun h d _ => h d⟩

/-- C3: for every pair of axis-aligned boxes with well-ordered bounds,
intersects returns true iff on every axis the projected closed
intervals overlap; moreover the predicate is symmetric and every box
intersects itself (so touching boxes intersect). -/
theorem intersects_characterisation {n : ℕ} (a b : Box n)
    (ha : ∀ d, a.lower d ≤ a.upper d) (hb : ∀ d, b.lower d ≤ b.upper d) :
    (intersects a b = true ↔
      ∀ d, a.lower d ≤ b.upper d ∧ b.lower d ≤ a.upper d) ∧
    intersects a b = intersects b a ∧
    intersects a a = true := by
  have key : ∀ (x y : Box n), (∀ d, x.lower d ≤ x.upper d) →
      (∀ d, y.lower d ≤ y.upper d) →
      (intersects x y = true ↔ ∀ d, x.lower d ≤ y.upper d ∧ y.lower d ≤ x.upper d) := by
    intro x y hx hy
    rw [intersects_eq_all]
    exact forall_congr' (fun d => axisCheck_iff x y d (hx d) (hy d))
  refine ⟨key a b ha hb, ?_, ?_⟩
  · cases hab : intersects a b <;> cases hba : intersects b a
    · rfl
    · exfalso
      have hP := (key b a hb ha).mp hba
      have hab2 : intersects a b = true :=
        (key a b ha hb).mpr (fun d => ⟨(hP d).2, (hP d).1⟩)
      rw [hab] at hab2
      exact Bool.false_ne_true hab2
    · exfalso
      have hP := (key a b ha hb).mp hab
      have hba2 : intersects b a = true :=
        (key b a hb ha).mpr (fun d => ⟨(hP d).2, (hP d).1⟩)
      rw [hba] at hba2
      exact Bool.false_ne_true hba2
    · rfl
  · exact (key a a ha ha).mpr (fun d => ⟨ha d, ha d⟩)

/-- Witness for C3: the characterisation applied to the unit box
against itself. -/
theorem intersects_characterisation_witness :
    (∀ d, exUnitBox.lower d ≤ exUnitBox.upper d) ∧
    ((intersects exUnitBox exUnitBox = true ↔
        ∀ d, exUnitBox.lower d ≤ exUnitBox.upper d ∧
          exUnitBox.lower d ≤ exUnitBox.upper d) ∧
      intersects exUnitBox exUnitBox = intersects exUnitBox exUnitBox ∧
      intersects exUnitBox exUnitBox = true) :=
  ⟨by decide, intersects_characterisation exUnitBox exUnitBox (by decide) (by decide)⟩

/-! ## Theorems: the Transaction state machine (C5) -/

/-- C5: a Transaction moves through Start, Intermediate, Finish, Done
in that order with its operation tag fixed at creation; invoking the
intermediate phase before start, invoking finish on an already
finished transaction, or passing an Interpolation transaction into a
Spreading phase call is rejected (none), never silently accepted. -/
theorem transaction_phase_order :
    (∀ op, startPhase op (newTransaction op) =
        some ⟨TransactionState.Intermediate, op⟩ ∧
      intermediatePhase op ⟨TransactionState.Intermediate, op⟩ =
        some ⟨TransactionState.Finish, op⟩ ∧
      finishPhase op ⟨TransactionState.Finish, op⟩ =
        some ⟨TransactionState.Done, op⟩) ∧
    (∀ op, intermediatePhase op (newTransaction op) = none) ∧
    (∀ op, finishPhase op ⟨TransactionState.Done, op⟩ = none) ∧
    (∀ st, startPhase TransactionOperation.Spreading
        ⟨st, TransactionOperation.Interpolation⟩ = none ∧
      intermediatePhase TransactionOperation.Spreading
        ⟨st, TransactionOperation.Interpolation⟩ = none ∧
      finishPhase TransactionOperation.Spreading
        ⟨st, TransactionOperation.Interpolation⟩ = none) := by
  refine ⟨fun op => ?_, fun op => ?_, fun op => ?_, fun st => ?_⟩
  · cases op <;> decide
  · cases op <;> decide
  · cases op <;> decide
  · cases st <;> decide

/-! ## Theorems: failure on an empty region of interest (C9) -/

/-- C9: when no level of the native triangulation has an active cell
whose bounding box intersects one of the patch boxes, the Assert of
reinit_overlapping_tria (lines 127-128) fires: the model produces no
overlap mesh. -/
theorem reinit_fails_on_empty_roi (t : NativeTria) (patches : List (Box 2))
    (h : ∀ l, l < nLevelsTria t → ∀ pc ∈ cellsOnLevel t l,
      pc.2.isLeafB = true → intersectsAny patches (quadBBox pc.2.cdata.geom) = false) :
    reinitModel t patches = none := by
  have hfind : (List.range (nLevelsTria t)).find?
      (fun l => (cellsOnLevel t l).any
        (fun pc => pc.2.isLeafB && intersectsAny patches (quadBBox pc.2.cdata.geom))) = none := by
    rw [List.find?_eq_none]
    intro l hl
    rw [List.mem_range] at hl
    intro hany
    rw [List.any_eq_true] at hany
    obtain ⟨pc, hpc, hval⟩ := hany
    rw [Bool.and_eq_true] at hval
    have hfalse := h l hl pc hpc hval.1
    rw [hfalse] at hval
    exact Bool.false_ne_true hval.2
  simp only [reinitModel, hfind]

/-- Witness for C9: on the example mesh with a disjoint patch box, the
hypothesis holds and reinit fails. -/
theorem reinit_fails_on_empty_roi_witness :
    (∀ l, l < nLevelsTria exTria → ∀ pc ∈ cellsOnLevel exTria l,
      pc.2.isLeafB = true →
        intersectsAny exFarPatches (quadBBox pc.2.cdata.geom) = false) ∧
    reinitModel exTria exFarPatches = none :=
  ⟨by decide, reinit_fails_on_empty_roi exTria exFarPatches (by decide)⟩

/-! ## Theorems: placement of the finite-element precondition check (C8) -/

/-- C8 counterexample: with mismatched finite elements the call is
rejected, but the first all-to-all exchange of requested cell indices
has already run when the check fires (the Assert at lines 67-69 comes
after the some_to_some at lines 59-62), so the rejection does not
happen before all inter-process communication. -/
theorem translation_fe_check_not_before_comm :
    (translationRun "FE_Q(1)" "FE_Q(2)" [] [] (fun _ => []) []).2 =
      Except.error "dof handlers should use the same FiniteElement" ∧
    (translationRun "FE_Q(1)" "FE_Q(2)" [] [] (fun _ => []) []).1 ≠ [] := by
  have hne : ("FE_Q(1)" : String) ≠ "FE_Q(2)" := by decide
  constructor
  · simp [translationRun, hne]
  · simp [translationRun, hne]

/-- C8 amended: with mismatched finite-element definitions the call is
rejected by the assertion at the start of the packing step — after the
request-exchange round, but before any DOF data is packed or the
second exchange round runs. -/
theorem translation_fe_mismatch_after_first_exchange
    (feO feN : String) (resident : List (ℕ × ℕ)) (owners : List ℕ)
    (ownedCells : ℕ → List (ℕ × List ℕ)) (overlapTable : List (ℕ × List ℕ))
    (h : feO ≠ feN) :
    translationRun feO feN resident owners ownedCells overlapTable =
      ([CommEvent.requestsExchange],
       Except.error "dof handlers should use the same FiniteElement") := by
  simp [translationRun, h]

/-- Witness for the amended C8 theorem at a concrete input. -/
theorem translation_fe_mismatch_after_first_exchange_witness :
    ("FE_Q(1)" : String) ≠ "FE_Q(2)" ∧
    translationRun "FE_Q(1)" "FE_Q(2)" [] [] (fun _ => []) [] =
      ([CommEvent.requestsExchange],
       Except.error "dof handlers should use the same FiniteElement") :=
  ⟨by decide,
   translation_fe_mismatch_after_first_exchange "FE_Q(1)" "FE_Q(2)" [] []
     (fun _ => []) [] (by decide)⟩

/-! ## Theorems: the Scatter round trip (C4) -/

/-- Writing a list of (index, value) pairs into a vector preserves its
length. -/
theorem foldl_set_length (f : List ℚ → ℕ × ℚ → List ℚ)
    (hf : ∀ acc jx, (f acc jx).length = acc.length) :
    ∀ (L : List (ℕ × ℚ)) (v : List ℚ), (L.foldl f v).length = v.length := by
  intro L
  induction L with
  | nil => intro v; rfl
  | cons a L ih =>
      intro v
      rw [List.foldl_cons, ih, hf]

/-- Accumulating a pair list into a vector adds, at position j, one
copy of x for every pair (j, x); pairs with other indices leave
position j unchanged. -/
theorem foldl_add_getD (j : ℕ) (x : ℚ) :
    ∀ (L : List (ℕ × ℚ)) (v : List ℚ), j < v.length →
      (∀ p ∈ L, p.1 = j → p.2 = x) →
      ((L.foldl (fun acc jx => acc.set jx.1 (acc.getD jx.1 0 + jx.2)) v).getD j 0) =
        v.getD j 0 + (L.countP (fun p => p.1 == j) : ℚ) * x := by
  intro L
  induction L with
  | nil =>
      intro v _ _
      simp
  | cons a L ih =>
      intro v hj hall
      rw [List.foldl_cons]
      by_cases h : a.1 = j
      · have hx : a.2 = x := hall a (List.mem_cons_self a L) h
        have hlen : j < (v.set a.1 (v.getD a.1 0 + a.2)).length := by
          rw [List.length_set]; exact hj
        rw [ih _ hlen (fun p hp => hall p (List.mem_cons_of_mem a hp))]
        have hset : (v.set a.1 (v.getD a.1 0 + a.2)).getD j 0 = v.getD j 0 + x := by
          subst h
          rw [hx, List.getD_eq_getElem?_getD, List.getElem?_set_self hj,
            Option.getD_some, List.getD_eq_getElem?_getD]
        rw [hset, List.countP_cons_of_pos _ _ (by simp [h])]
        push_cast
        ring
      · have hlen : j < (v.set a.1 (v.getD a.1 0 + a.2)).length := by
          rw [List.length_set]; exact hj
        rw [ih _ hlen (fun p hp => hall p (List.mem_cons_of_mem a hp))]
        have hset : (v.set a.1 (v.getD a.1 0 + a.2)).getD j 0 = v.getD j 0 := by
          rw [List.getD_eq_getElem?_getD, List.getElem?_set_ne h,
            ← List.getD_eq_getElem?_getD]
        rw [hset, List.countP_cons_of_neg _ _ (by simp [h])]

/-- Overwriting with pairs that never touch position j leaves it
unchanged. -/
theorem foldl_insert_skip (j : ℕ) :
    ∀ (L : List (ℕ × ℚ)) (v : List ℚ), (∀ p ∈ L, p.1 ≠ j) →
      ((L.foldl (fun acc jx => acc.set jx.1 jx.2) v).getD j 0) = v.getD j 0 := by
  intro L
  induction L with
  | nil => intro v _; rfl
  | cons a L ih =>
      intro v hall
      rw [List.foldl_cons, ih _ (fun p hp => hall p (List.mem_cons_of_mem a hp)),
        List.getD_eq_getElem?_getD,
        List.getElem?_set_ne (hall a (List.mem_cons_self a L)),
        ← List.getD_eq_getElem?_getD]

/-- Overwriting with a pair list containing exactly one pair for
position j, with value w, leaves w at position j. -/
theorem foldl_insert_getD (j : ℕ) (w : ℚ) :
    ∀ (L : List (ℕ × ℚ)) (v : List ℚ), j < v.length →
      (∀ p ∈ L, p.1 = j → p.2 = w) →
      L.countP (fun p => p.1 == j) = 1 →
      ((L.foldl (fun acc jx => acc.set jx.1 jx.2) v).getD j 0) = w := by
  intro L
  induction L with
  | nil =>
      intro v _ _ hcount
      exact absurd hcount (by simp)
  | cons a L ih =>
      intro v hj hall hcount
      rw [List.foldl_cons]
      by_cases h : a.1 = j
      · have hx : a.2 = w := hall a (List.mem_cons_self a L) h
        rw [List.countP_cons_of_pos _ _ (by simp [h])] at hcount
        have hzero : L.countP (fun p => p.1 == j) = 0 := by omega
        rw [List.countP_eq_zero] at hzero
        rw [foldl_insert_skip j L _ (fun p hp => by
          intro hpj
          exact hzero p hp (by simp [hpj]))]
        subst h
        rw [hx, List.getD_eq_getElem?_getD, List.getElem?_set_self hj, Option.getD_some]
      · have hlen : j < (v.set a.1 a.2).length := by
          rw [List.length_set]; exact hj
        rw [List.countP_cons_of_neg _ _ (by simp [h])] at hcount
        exact ih _ hlen (fun p hp => hall p (List.mem_cons_of_mem a hp)) hcount

/-- The zip of an index map with the overlap buffer it produced. -/
theorem zip_globalToOverlap (v : List ℚ) (idx : List ℕ) :
    idx.zip (globalToOverlap v idx) =
      idx.map (fun a => (a, v.getD a 0)) := by
  have h := List.zip_map' id (fun a => v.getD a 0) idx
  simpa [globalToOverlap] using h

/-- C4: for a native vector v, the native-to-overlap scatter followed
by the overlap-to-native scatter with overwrite semantics reproduces v
at every entry with exactly one overlap contributor; with accumulation
semantics, an entry j with k contributors, each holding v[j], ends
with its prior value plus k times v[j]. -/
theorem scatter_round_trip :
    (∀ (v nat : List ℚ) (idx : List ℕ) (j : ℕ),
      j < nat.length → idx.count j = 1 →
      (overlapToGlobalInsert idx (globalToOverlap v idx) nat).getD j 0 = v.getD j 0) ∧
    (∀ (v nat : List ℚ) (idx : List ℕ) (j k : ℕ),
      j < nat.length → idx.count j = k →
      (overlapToGlobalAdd idx (globalToOverlap v idx) nat).getD j 0 =
        nat.getD j 0 + (k : ℚ) * (v.getD j 0)) := by
  have hcnt : ∀ (v : List ℚ) (idx : List ℕ) (j : ℕ),
      (idx.map (fun a => (a, v.getD a 0))).countP (fun p => p.1 == j) = idx.count j := by
    intro v idx j
    rw [List.countP_map]
    rfl
  have hmem : ∀ (v : List ℚ) (idx : List ℕ) (j : ℕ),
      ∀ p ∈ idx.map (fun a => (a, v.getD a 0)), p.1 = j → p.2 = v.getD j 0 := by
    intro v idx j p hp hpj
    obtain ⟨a, _, rfl⟩ := List.mem_map.mp hp
    simp only at hpj
    rw [← hpj]
  constructor
  · intro v nat idx j hj hcount
    rw [overlapToGlobalInsert, zip_globalToOverlap]
    exact foldl_insert_getD j (v.getD j 0) _ nat hj (hmem v idx j)
      (by rw [hcnt]; exact hcount)
  · intro v nat idx j k hj hcount
    rw [overlapToGlobalAdd, zip_globalToOverlap]
    rw [foldl_add_getD j (v.getD j 0) _ nat hj (hmem v idx j), hcnt, hcount]

/-- Witness for C4: a concrete round trip; index 0 has a unique
contributor, index 1 has two contributors. -/
theorem scatter_round_trip_witness :
    ((0 : ℕ) < [(5 : ℚ), 7].length ∧ [0, 1, 1].count 0 = 1 ∧
      (overlapToGlobalInsert [0, 1, 1] (globalToOverlap [(3 : ℚ), 4] [0, 1, 1])
        [(5 : ℚ), 7]).getD 0 0 = [(3 : ℚ), 4].getD 0 0) ∧
    ((1 : ℕ) < [(5 : ℚ), 7].length ∧ [0, 1, 1].count 1 = 2 ∧
      (overlapToGlobalAdd [0, 1, 1] (globalToOverlap [(3 : ℚ), 4] [0, 1, 1])
        [(5 : ℚ), 7]).getD 1 0 =
        [(5 : ℚ), 7].getD 1 0 + ((2 : ℕ) : ℚ) * ([(3 : ℚ), 4].getD 1 0)) :=
  ⟨⟨by decide, by decide,
    scatter_round_trip.1 [(3 : ℚ), 4] [(5 : ℚ), 7] [0, 1, 1] 0 (by decide) (by decide)⟩,
   ⟨by decide, by decide,
    scatter_round_trip.2 [(3 : ℚ), 4] [(5 : ℚ), 7] [0, 1, 1] 1 2 (by decide) (by decide)⟩⟩

/-! ## Theorems: the packing loop of step 3 (C6) -/

/-- Mapping equal functions over a list gives equal flat maps. -/
theorem flatMap_congr {α β : Type} {l : List α} {f g : α → List β}
    (h : ∀ x ∈ l, f x = g x) : l.flatMap f = l.flatMap g := by
  induction l with
  | nil => rfl
  | cons a l ih =>
      rw [List.flatMap_cons, List.flatMap_cons, h a (List.mem_cons_self a l),
        ih (fun x hx => h x (List.mem_cons_of_mem a hx))]

/-- A record spec looked up past a head cell with a different index. -/
theorem packedRecordSpec_cons_ne (i : ℕ) (d : List ℕ) (cs : List (ℕ × List ℕ))
    (r : ℕ) (h : i ≠ r) :
    packedRecordSpec ((i, d) :: cs) r = packedRecordSpec cs r := by
  have hbeq : (r == i) = false := by
    rw [beq_eq_false_iff_ne]
    exact Ne.symm h
  simp only [packedRecordSpec, List.lookup, hbeq]

/-- C6: when the responder's cells are listed in strictly increasing
active-cell-index order (as the active cell iteration produces them),
and the requested indices are strictly increasing and all present
among the cells, the single walk of the packing loop emits exactly one
record per requested index, in request (hence increasing) order, each
of the form [index, dof count, dofs..., sentinel]. -/
theorem packDofs_packs_requested (cells : List (ℕ × List ℕ)) (requests : List ℕ)
    (hc : List.Pairwise (fun a b : ℕ × List ℕ => a.1 < b.1) cells)
    (hr : List.Pairwise (· < ·) requests)
    (hmem : ∀ r ∈ requests, r ∈ cells.map Prod.fst) :
    packDofs cells requests = requests.flatMap (packedRecordSpec cells) := by
  induction cells generalizing requests with
  | nil =>
      cases requests with
      | nil => rfl
      | cons r rs =>
          exact absurd (hmem r (List.mem_cons_self r rs)) (by simp)
  | cons cell cs ih =>
      obtain ⟨i, d⟩ := cell
      cases requests with
      | nil => rfl
      | cons r rs =>
          have hhead := (List.pairwise_cons.mp hr).1
          have htail := (List.pairwise_cons.mp hr).2
          have hchead := (List.pairwise_cons.mp hc).1
          have hctail := (List.pairwise_cons.mp hc).2
          by_cases hir : i = r
          · subst hir
            rw [packDofs, if_pos rfl]
            have hlook : packedRecordSpec ((i, d) :: cs) i =
                i :: d.length :: (d ++ [invalidDofIndex]) := by
              simp [packedRecordSpec, List.lookup]
            have hcong : ∀ r2 ∈ rs, packedRecordSpec ((i, d) :: cs) r2 =
                packedRecordSpec cs r2 := by
              intro r2 h2
              exact packedRecordSpec_cons_ne i d cs r2 (Nat.ne_of_lt (hhead r2 h2))
            have hmem2 : ∀ r2 ∈ rs, r2 ∈ cs.map Prod.fst := by
              intro r2 h2
              have := hmem r2 (List.mem_cons_of_mem i h2)
              rw [List.map_cons] at this
              rcases List.mem_cons.mp this with h3 | h3
              · exact absurd h3.symm (Nat.ne_of_lt (hhead r2 h2))
              · exact h3
            rw [List.flatMap_cons, hlook, flatMap_congr hcong, ← ih rs hctail htail hmem2]
            simp
          · rw [packDofs, if_neg hir]
            have hrmem : r ∈ cs.map Prod.fst := by
              have := hmem r (List.mem_cons_self r rs)
              rw [List.map_cons] at this
              rcases List.mem_cons.mp this with h3 | h3
              · exact absurd h3.symm hir
              · exact h3
            have hilt : i < r := by
              obtain ⟨p, hp, hpeq⟩ := List.mem_map.mp hrmem
              have := hchead p hp
              omega
            have hne : ∀ r2 ∈ r :: rs, i ≠ r2 := by
              intro r2 h2
              rcases List.mem_cons.mp h2 with h3 | h3
              · subst h3; exact hir
              · exact Nat.ne_of_lt (lt_trans hilt (hhead r2 h3))
            have hcong : ∀ r2 ∈ r :: rs, packedRecordSpec ((i, d) :: cs) r2 =
                packedRecordSpec cs r2 := by
              intro r2 h2
              exact packedRecordSpec_cons_ne i d cs r2 (hne r2 h2)
            have hmem2 : ∀ r2 ∈ r :: rs, r2 ∈ cs.map Prod.fst := by
              intro r2 h2
              have := hmem r2 h2
              rw [List.map_cons] at this
              rcases List.mem_cons.mp this with h3 | h3
              · exact absurd h3.symm (hne r2 h2)
              · exact h3
            rw [flatMap_congr hcong, ← ih (r :: rs) hctail hr hmem2]

/-- Witness for C6 at a concrete responder cell list and request
list. -/
theorem packDofs_packs_requested_witness :
    (List.Pairwise (fun a b : ℕ × List ℕ => a.1 < b.1)
        [(0, [7, 8]), (2, [9, 4]), (5, [1])] ∧
      List.Pairwise (· < ·) [0, 5] ∧
      ∀ r ∈ [0, 5], r ∈ ([(0, [7, 8]), (2, [9, 4]), (5, [1])].map Prod.fst)) ∧
    packDofs [(0, [7, 8]), (2, [9, 4]), (5, [1])] [0, 5] =
      [0, 5].flatMap (packedRecordSpec [(0, [7, 8]), (2, [9, 4]), (5, [1])]) :=
  ⟨⟨by decide, by decide, by decide⟩,
   packDofs_packs_requested [(0, [7, 8]), (2, [9, 4]), (5, [1])] [0, 5]
     (by decide) (by decide) (by decide)⟩

/-! ## Theorems: the final collapse of step 4 (C2) -/

/-- In a list sorted by first component in which equal first
components force equal elements, removing adjacent duplicates removes
every duplicate: each element of the list survives in the destuttered
list. -/
theorem mem_destutter_of_sorted_aux (l : List (ℕ × ℕ)) :
    ∀ (a : ℕ × ℕ), List.Pairwise (fun x y : ℕ × ℕ => x.1 ≤ y.1) (a :: l) →
      (∀ x ∈ a :: l, ∀ y ∈ a :: l, x.1 = y.1 → x = y) →
      ∀ x ∈ a :: l, x ∈ l.destutter' (· ≠ ·) a := by
  induction l with
  | nil =>
      intro a _ _ x hx
      rw [List.destutter'_nil]
      simpa using hx
  | cons b t ih =>
      intro a hpw hcons x hx
      by_cases hab : a = b
      · rw [List.destutter'_cons_neg t (by simpa using hab)]
        have hsub : List.Sublist (a :: t) (a :: b :: t) :=
          List.Sublist.cons₂ a (List.sublist_cons_self b t)
        refine ih a (hpw.sublist hsub) ?_ x ?_
        · intro x2 hx2 y2 hy2
          exact hcons x2 (hsub.subset hx2) y2 (hsub.subset hy2)
        · rcases List.mem_cons.mp hx with h | h
          · exact h ▸ List.mem_cons_self a t
          · rcases List.mem_cons.mp h with h2 | h2
            · rw [h2, ← hab]
              exact List.mem_cons_self a t
            · exact List.mem_cons_of_mem a h2
      · rw [List.destutter'_cons_pos t (by simpa using hab)]
        rcases List.mem_cons.mp hx with h | h
        · exact h ▸ List.mem_cons_self a _
        · have hsub : List.Sublist (b :: t) (a :: b :: t) := List.sublist_cons_self a (b :: t)
          refine List.mem_cons_of_mem a (ih b (hpw.sublist hsub) ?_ x h)
          intro x2 hx2 y2 hy2
          exact hcons x2 (hsub.subset hx2) y2 (hsub.subset hy2)

/-- Destuttering a sorted consistent list keeps every member. -/
theorem mem_destutter_of_sorted (l : List (ℕ × ℕ))
    (hpw : List.Pairwise (fun x y : ℕ × ℕ => x.1 ≤ y.1) l)
    (hcons : ∀ x ∈ l, ∀ y ∈ l, x.1 = y.1 → x = y) :
    ∀ x ∈ l, x ∈ l.destutter (· ≠ ·) := by
  cases l with
  | nil => intro x hx; cases hx
  | cons a t =>
      rw [List.destutter_cons']
      exact mem_destutter_of_sorted_aux t a hpw hcons

/-- A list sorted by first component, with adjacent elements distinct
and equal first components forcing equal elements, is strictly
increasing in its first components (adjacent pairs). -/
theorem chain_lt_of_pairwise_ne (m : List (ℕ × ℕ))
    (hpw : List.Pairwise (fun x y : ℕ × ℕ => x.1 ≤ y.1) m)
    (hne : m.Chain' (fun x y : ℕ × ℕ => x ≠ y))
    (hcons : ∀ x ∈ m, ∀ y ∈ m, x.1 = y.1 → x = y) :
    m.Chain' (fun x y : ℕ × ℕ => x.1 < y.1) := by
  induction m with
  | nil => simp
  | cons a t ih =>
      cases t with
      | nil => simp
      | cons b t2 =>
          rw [List.chain'_cons] at hne ⊢
          obtain ⟨hab, hrest⟩ := hne
          have hle : a.1 ≤ b.1 :=
            (List.pairwise_cons.mp hpw).1 b (List.mem_cons_self b t2)
          have hsub : List.Sublist (b :: t2) (a :: b :: t2) := List.sublist_cons_self a (b :: t2)
          refine ⟨?_, ih (hpw.sublist hsub) hrest ?_⟩
          · rcases lt_or_eq_of_le hle with h | h
            · exact h
            · exact absurd (hcons a (List.mem_cons_self a _) b
                (hsub.subset (List.mem_cons_self b t2)) h) hab
          · intro x2 hx2 y2 hy2
            exact hcons x2 (hsub.subset hx2) y2 (hsub.subset hy2)

/-- C2: when the collected (overlap dof, native dof) pairs are
consistent (two pairs with the same overlap dof carry the same native
dof) and the overlap dofs appearing are exactly 0..N-1, the sorted and
deduplicated array has exactly one entry per overlap dof, and indexing
it by an overlap dof yields that dof's unique native dof. -/
theorem collapsePairs_dense (pairs : List (ℕ × ℕ)) (N : ℕ)
    (hcons : ∀ p ∈ pairs, ∀ q ∈ pairs, p.1 = q.1 → p.2 = q.2)
    (hcov : ∀ k, k < N ↔ ∃ v, (k, v) ∈ pairs) :
    (collapsePairs pairs).length = N ∧
    ∀ k v, (k, v) ∈ pairs → (collapsePairs pairs)[k]? = some v := by
  haveI instTot : IsTotal (ℕ × ℕ) (fun a b : ℕ × ℕ => a.1 ≤ b.1) :=
    ⟨fun a b => Nat.le_total a.1 b.1⟩
  haveI instTrans : IsTrans (ℕ × ℕ) (fun a b : ℕ × ℕ => a.1 ≤ b.1) :=
    ⟨fun _ _ _ h1 h2 => le_trans h1 h2⟩
  simp only [collapsePairs]
  set S := List.insertionSort (fun a b : ℕ × ℕ => a.1 ≤ b.1) pairs with hS
  have hperm : List.Perm S pairs := List.perm_insertionSort _ pairs
  have hsorted : List.Pairwise (fun a b : ℕ × ℕ => a.1 ≤ b.1) S :=
    List.sorted_insertionSort _ pairs
  have hconsS : ∀ x ∈ S, ∀ y ∈ S, x.1 = y.1 → x = y := by
    intro x hx y hy hxy
    have h2 := hcons x (hperm.mem_iff.mp hx) y (hperm.mem_iff.mp hy) hxy
    exact Prod.ext hxy h2
  set D := S.destutter (fun x y : ℕ × ℕ => x ≠ y) with hD
  have hsubD : List.Sublist D S := List.destutter_sublist _ S
  have hmemD : ∀ x ∈ S, x ∈ D := mem_destutter_of_sorted S hsorted hconsS
  have hchainne : D.Chain' (fun x y : ℕ × ℕ => x ≠ y) := List.destutter_is_chain' _ S
  have hpwD : D.Pairwise (fun a b : ℕ × ℕ => a.1 ≤ b.1) := hsorted.sublist hsubD
  have hconsD : ∀ x ∈ D, ∀ y ∈ D, x.1 = y.1 → x = y := by
    intro x hx y hy
    exact hconsS x (hsubD.subset hx) y (hsubD.subset hy)
  have hchainlt := chain_lt_of_pairwise_ne D hpwD hchainne hconsD
  haveI : IsTrans (ℕ × ℕ) (fun x y : ℕ × ℕ => x.1 < y.1) :=
    ⟨fun _ _ _ h1 h2 => lt_trans h1 h2⟩
  have hpwlt : D.Pairwise (fun x y : ℕ × ℕ => x.1 < y.1) :=
    List.chain'_iff_pairwise.mp hchainlt
  have hpwfst : (D.map Prod.fst).Pairwise (· < ·) := List.pairwise_map.mpr hpwlt
  have hNodupfst : (D.map Prod.fst).Nodup := hpwfst.imp Nat.ne_of_lt
  have hmemiff : ∀ k, k ∈ D.map Prod.fst ↔ k ∈ List.range N := by
    intro k
    rw [List.mem_range]
    constructor
    · intro hk
      obtain ⟨p, hpD, hpk⟩ := List.mem_map.mp hk
      have hpairs : p ∈ pairs := hperm.mem_iff.mp (hsubD.subset hpD)
      exact (hcov k).mpr ⟨p.2, by rw [← hpk]; exact hpairs⟩
    · intro hk
      obtain ⟨v, hv⟩ := (hcov k).mp hk
      have hvS : (k, v) ∈ S := hperm.mem_iff.mpr hv
      exact List.mem_map.mpr ⟨(k, v), hmemD _ hvS, rfl⟩
  have hrange : D.map Prod.fst = List.range N := by
    haveI : IsAntisymm ℕ (· < ·) :=
      ⟨fun a b h1 h2 => absurd h1 (Nat.lt_asymm h2)⟩
    exact List.eq_of_perm_of_sorted
      ((List.perm_ext_iff_of_nodup hNodupfst (List.nodup_range N)).mpr hmemiff)
      hpwfst (List.pairwise_lt_range N)
  constructor
  · have h1 : (D.map (fun pr : ℕ × ℕ => pr.2)).length = D.length := List.length_map D _
    have h2 : (D.map Prod.fst).length = D.length := List.length_map D _
    rw [h1, ← h2, hrange, List.length_range]
  · intro k v hkv
    have hmem2 : (k, v) ∈ D := hmemD _ (hperm.mem_iff.mpr hkv)
    obtain ⟨i, hi⟩ := List.mem_iff_getElem?.mp hmem2
    have hik : i = k := by
      have h1 : (D.map Prod.fst)[i]? = some k := by
        rw [List.getElem?_map, hi]
        rfl
      rw [hrange] at h1
      have hiN : i < N := by
        by_contra hge
        rw [List.getElem?_eq_none (by simpa [List.length_range] using hge)] at h1
        cases h1
      rw [List.getElem?_range hiN] at h1
      exact Option.some_inj.mp h1
    rw [List.getElem?_map, ← hik, hi]
    rfl

/-- Witness for C2: three collected pairs with one duplicate collapse
to the dense two-entry array. -/
theorem collapsePairs_dense_witness :
    ((∀ p ∈ [((1 : ℕ), (10 : ℕ)), (0, 5), (1, 10)],
        ∀ q ∈ [((1 : ℕ), (10 : ℕ)), (0, 5), (1, 10)], p.1 = q.1 → p.2 = q.2) ∧
      (∀ k, k < 2 ↔ ∃ v, (k, v) ∈ [((1 : ℕ), (10 : ℕ)), (0, 5), (1, 10)])) ∧
    ((collapsePairs [((1 : ℕ), (10 : ℕ)), (0, 5), (1, 10)]).length = 2 ∧
      ∀ k v, (k, v) ∈ [((1 : ℕ), (10 : ℕ)), (0, 5), (1, 10)] →
        (collapsePairs [((1 : ℕ), (10 : ℕ)), (0, 5), (1, 10)])[k]? = some v) := by
  have hcov : ∀ k, k < 2 ↔ ∃ v, (k, v) ∈ [((1 : ℕ), (10 : ℕ)), (0, 5), (1, 10)] := by
    intro k
    constructor
    · intro hk
      interval_cases k
      · exact ⟨5, by decide⟩
      · exact ⟨10, by decide⟩
    · rintro ⟨v, hv⟩
      simp only [List.mem_cons, List.not_mem_nil, or_false, Prod.mk.injEq] at hv
      rcases hv with ⟨rfl, _⟩ | ⟨rfl, _⟩ | ⟨rfl, _⟩ <;> omega
  exact ⟨⟨by decide, hcov⟩,
    collapsePairs_dense [((1 : ℕ), (10 : ℕ)), (0, 5), (1, 10)] 2 (by decide) hcov⟩

/-! ## Path and level lemmas for the native triangulation -/

/-- Looking up a concatenated path is sequential lookup. -/
theorem subCellAt_append (q : List ℕ) :
    ∀ (p : List ℕ) (n : NativeCell),
      subCellAt n (p ++ q) = (subCellAt n p).bind (fun c => subCellAt c q) := by
  intro p
  induction p with
  | nil => intro n; rfl
  | cons i p ih =>
      intro n
      simp only [List.cons_append, subCellAt]
      cases h : childAt n i with
      | none => rfl
      | some c => simp [ih c]

/-- Looking up a concatenated path in the triangulation. -/
theorem cellAt_append (t : NativeTria) (p q : List ℕ) (hp : p ≠ []) :
    cellAt t (p ++ q) = (cellAt t p).bind (fun c => subCellAt c q) := by
  cases p with
  | nil => exact absurd rfl hp
  | cons i p =>
      show cellAt t (i :: (p ++ q)) = _
      simp only [cellAt]
      cases t.get? i with
      | none => rfl
      | some n => exact subCellAt_append q p n

/-- The children of a well-formed refined cell: geometry and boundary
ids come from the deterministic refinement of the parent, and the
children are themselves well-formed. -/
theorem wfCell_node {d : CellData} {c0 c1 c2 c3 : NativeCell}
    (h : wfCell (.node d c0 c1 c2 c3) = true) :
    (c0.cdata.geom = refineQuad d.geom 0 ∧ c0.cdata.bdry = refineBdry d.bdry 0 ∧
      wfCell c0 = true) ∧
    (c1.cdata.geom = refineQuad d.geom 1 ∧ c1.cdata.bdry = refineBdry d.bdry 1 ∧
      wfCell c1 = true) ∧
    (c2.cdata.geom = refineQuad d.geom 2 ∧ c2.cdata.bdry = refineBdry d.bdry 2 ∧
      wfCell c2 = true) ∧
    (c3.cdata.geom = refineQuad d.geom 3 ∧ c3.cdata.bdry = refineBdry d.bdry 3 ∧
      wfCell c3 = true) := by
  rw [wfCell] at h
  simp only [Bool.and_eq_true, beq_iff_eq] at h
  tauto

/-- Well-formedness descends to any descendant cell. -/
theorem wfCell_subCellAt :
    ∀ (p : List ℕ) (n c : NativeCell), wfCell n = true →
      subCellAt n p = some c → wfCell c = true := by
  intro p
  induction p with
  | nil =>
      intro n c hwf h
      cases h
      exact hwf
  | cons i p ih =>
      intro n c hwf h
      show wfCell c = true
      rcases n with d | ⟨d, c0, c1, c2, c3⟩
      · cases h
      · obtain ⟨h0, h1, h2, h3⟩ := wfCell_node hwf
        match i, h with
        | 0, h => exact ih c0 c h0.2.2 h
        | 1, h => exact ih c1 c h1.2.2 h
        | 2, h => exact ih c2 c h2.2.2 h
        | 3, h => exact ih c3 c h3.2.2 h

/-- Well-formedness of the triangulation descends to any cell. -/
theorem wfCell_cellAt (t : NativeTria) (p : List ℕ) (c : NativeCell)
    (hwf : wfTria t = true) (h : cellAt t p = some c) : wfCell c = true := by
  cases p with
  | nil => cases h
  | cons i q =>
      simp only [cellAt] at h
      cases hg : t.get? i with
      | none => rw [hg] at h; cases h
      | some n =>
          rw [hg] at h
          have hn : wfCell n = true := by
            rw [wfTria, List.all_eq_true] at hwf
            exact hwf n (by
              have := List.getElem?_mem (by simpa using hg)
              simpa using this)
          exact wfCell_subCellAt q n c hn h

/-- Members of the per-cell level list are descendants at that depth. -/
theorem subCellAt_of_mem_subPathsOnLevel :
    ∀ (l : ℕ) (n : NativeCell) (q : List ℕ) (c : NativeCell),
      (q, c) ∈ subPathsOnLevel n l → subCellAt n q = some c := by
  intro l
  induction l with
  | zero =>
      intro n q c h
      simp only [subPathsOnLevel, List.mem_singleton, Prod.mk.injEq] at h
      rw [h.1, h.2]
      rfl
  | succ l ih =>
      intro n q c h
      rcases n with d | ⟨d, c0, c1, c2, c3⟩
      · simp [subPathsOnLevel] at h
      · simp only [subPathsOnLevel, List.mem_append, List.mem_map, Prod.mk.injEq] at h
        rcases h with ((⟨⟨q0, c9⟩, hm, hq, hc⟩ | ⟨⟨q0, c9⟩, hm, hq, hc⟩) |
            ⟨⟨q0, c9⟩, hm, hq, hc⟩) | ⟨⟨q0, c9⟩, hm, hq, hc⟩ <;>
          subst hq <;> subst hc <;>
          simpa [subCellAt, childAt] using ih _ _ _ hm

/-- Members of the per-level list with offset come from list lookup. -/
theorem shape_of_mem_cellsOnLevelAux :
    ∀ (ts : List NativeCell) (i l : ℕ) (p : List ℕ) (c : NativeCell),
      (p, c) ∈ cellsOnLevelAux ts i l →
      ∃ j q n, p = (i + j) :: q ∧ ts.get? j = some n ∧ (q, c) ∈ subPathsOnLevel n l := by
  intro ts
  induction ts with
  | nil => intro i l p c h; cases h
  | cons m rest ih =>
      intro i l p c h
      simp only [cellsOnLevelAux, List.mem_append, List.mem_map, Prod.mk.injEq] at h
      rcases h with ⟨⟨q0, c9⟩, hm, hq, hc⟩ | h
      · subst hq
        subst hc
        exact ⟨0, q0, m, by simp, rfl, hm⟩
      · obtain ⟨j, q, n, hp, hget, hmem⟩ := ih (i + 1) l p c h
        refine ⟨j + 1, q, n, ?_, by simpa using hget, hmem⟩
        rw [hp]
        congr 1
        omega

/-- A member of the level list is the cell at its path. -/
theorem cellAt_of_mem_cellsOnLevel (t : NativeTria) (l : ℕ) (p : List ℕ)
    (c : NativeCell) (h : (p, c) ∈ cellsOnLevel t l) : cellAt t p = some c := by
  obtain ⟨j, q, n, hp, hget, hmem⟩ := shape_of_mem_cellsOnLevelAux t 0 l p c h
  rw [hp]
  simp only [Nat.zero_add, cellAt, hget]
  exact subCellAt_of_mem_subPathsOnLevel l n q c hmem

/-- Conversely, a descendant at depth q.length appears in the level
list. -/
theorem mem_subPathsOnLevel_of_subCellAt :
    ∀ (q : List ℕ) (n c : NativeCell),
      subCellAt n q = some c → (q, c) ∈ subPathsOnLevel n q.length := by
  intro q
  induction q with
  | nil =>
      intro n c h
      cases h
      simp [subPathsOnLevel]
  | cons i q ih =>
      intro n c h
      simp only [subCellAt] at h
      cases hc : childAt n i with
      | none => rw [hc] at h; cases h
      | some m =>
          rw [hc] at h
          simp only [Option.some_bind] at h
          have hmem := ih m c h
          rcases n with d | ⟨d, c0, c1, c2, c3⟩
          · cases hc
          · match i, hc with
            | 0, hc =>
                cases hc
                simp only [List.length_cons, subPathsOnLevel, List.mem_append]
                exact Or.inl (Or.inl (Or.inl (List.mem_map.mpr ⟨(q, c), hmem, rfl⟩)))
            | 1, hc =>
                cases hc
                simp only [List.length_cons, subPathsOnLevel, List.mem_append]
                exact Or.inl (Or.inl (Or.inr (List.mem_map.mpr ⟨(q, c), hmem, rfl⟩)))
            | 2, hc =>
                cases hc
                simp only [List.length_cons, subPathsOnLevel, List.mem_append]
                exact Or.inl (Or.inr (List.mem_map.mpr ⟨(q, c), hmem, rfl⟩))
            | 3, hc =>
                cases hc
                simp only [List.length_cons, subPathsOnLevel, List.mem_append]
                exact Or.inr (List.mem_map.mpr ⟨(q, c), hmem, rfl⟩)

/-- Conversely, a descendant of the j-th root appears in the level
list with offset. -/
theorem mem_cellsOnLevelAux_of_get :
    ∀ (ts : List NativeCell) (j : ℕ) (n : NativeCell) (i : ℕ) (q : List ℕ)
      (c : NativeCell) (l : ℕ),
      ts.get? j = some n → (q, c) ∈ subPathsOnLevel n l →
      ((i + j) :: q, c) ∈ cellsOnLevelAux ts i l := by
  intro ts
  induction ts with
  | nil => intro j n i q c l hget _; cases j <;> cases hget
  | cons m rest ih =>
      intro j n i q c l hget hmem
      cases j with
      | zero =>
          cases hget
          simp only [cellsOnLevelAux, List.mem_append]
          exact Or.inl (List.mem_map.mpr ⟨(q, c), hmem, by simp⟩)
      | succ j =>
          have h2 := ih j n (i + 1) q c l (by simpa using hget) hmem
          simp only [cellsOnLevelAux, List.mem_append]
          right
          have heq : i + (j + 1) = i + 1 + j := by omega
          rw [heq]
          exact h2

/-- A descendant path is shorter than the subtree depth. -/
theorem length_lt_depth_of_subCellAt :
    ∀ (q : List ℕ) (n c : NativeCell),
      subCellAt n q = some c → q.length < n.depth := by
  intro q
  induction q with
  | nil =>
      intro n c _
      cases n <;> simp [NativeCell.depth]
  | cons i q ih =>
      intro n c h
      simp only [subCellAt] at h
      cases hc : childAt n i with
      | none => rw [hc] at h; cases h
      | some m =>
          rw [hc] at h
          simp only [Option.some_bind] at h
          have hlt := ih m c h
          rcases n with d | ⟨d, c0, c1, c2, c3⟩
          · cases hc
          · have hdep : m.depth ≤ (NativeCell.node d c0 c1 c2 c3).depth - 1 := by
              match i, hc with
              | 0, hc => cases hc; simp [NativeCell.depth]
              | 1, hc => cases hc; simp [NativeCell.depth]
              | 2, hc => cases hc; simp [NativeCell.depth]
              | 3, hc => cases hc; simp [NativeCell.depth]
            have hpos : 1 ≤ (NativeCell.node d c0 c1 c2 c3).depth := by
              simp [NativeCell.depth]
            simp only [List.length_cons]
            omega

/-- Every root's depth bounds the level count of the triangulation. -/
theorem depth_le_nLevelsTria :
    ∀ (ts : List NativeCell) (j : ℕ) (n : NativeCell),
      ts.get? j = some n → n.depth ≤ nLevelsTria ts := by
  intro ts
  induction ts with
  | nil => intro j n h; cases j <;> cases h
  | cons m rest ih =>
      intro j n h
      cases j with
      | zero =>
          cases h
          exact le_max_left _ _
      | succ j =>
          exact le_trans (ih j n (by simpa using h)) (le_max_right _ _)

/-- The path of an active cell of the triangulation appears in the
active path enumeration, so the cell has an active_cell_index. -/
theorem mem_activePaths (t : NativeTria) (p : List ℕ) (c : NativeCell)
    (h : cellAt t p = some c) (hleaf : c.isLeafB = true) : p ∈ activePaths t := by
  cases p with
  | nil => cases h
  | cons j q =>
      simp only [cellAt] at h
      cases hg : t.get? j with
      | none => rw [hg] at h; cases h
      | some n =>
          rw [hg] at h
          have hmem := mem_subPathsOnLevel_of_subCellAt q n c h
          have hlvl : q.length < nLevelsTria t :=
            lt_of_lt_of_le (length_lt_depth_of_subCellAt q n c h)
              (depth_le_nLevelsTria t j n hg)
          have hcell : ((j : ℕ) :: q, c) ∈ cellsOnLevel t q.length := by
            have := mem_cellsOnLevelAux_of_get t j n 0 q c q.length hg hmem
            simpa [cellsOnLevel] using this
          rw [activePaths]
          refine List.mem_flatMap.mpr ⟨q.length, List.mem_range.mpr hlvl, ?_⟩
          exact List.mem_map.mpr ⟨(j :: q, c), List.mem_filter.mpr ⟨hcell, by simpa using hleaf⟩, rfl⟩

/-! ## The overlap-construction invariant -/

/-- Invariant of buildOverlap: every resident (subdomain 0) active
cell of the constructed overlap subtree refers back to an active
native cell with identical geometry, material id and face boundary
ids.  The creation-time arguments g, b mirror the native data, and m
mirrors the native material id whenever the native cell is active
(exactly what reinit_overlapping_tria maintains). -/
theorem buildOverlap_invariant (patches : List (Box 2)) (t : NativeTria) :
    ∀ (n : NativeCell) (p : List ℕ) (g : Quad) (m : ℕ) (b : Bdry),
      wfCell n = true → cellAt t p = some n →
      g = n.cdata.geom → b = n.cdata.bdry →
      (n.isLeafB = true → m = n.cdata.material) →
      ∀ d ∈ activesData (buildOverlap patches n p g m b), d.subdomain = 0 →
        ∃ nc, cellAt t d.native = some nc ∧ nc.isLeafB = true ∧
          nc.cdata.geom = d.geom ∧ nc.cdata.material = d.material ∧
          nc.cdata.bdry = d.bdry := by
  intro n
  induction n with
  | leaf cd =>
      intro p g m b hwf hcell hg hb hm d hd hres
      simp only [buildOverlap] at hd
      by_cases hint : intersectsAny patches (quadBBox g) = true
      · rw [if_pos hint] at hd
        simp only [activesData, List.mem_singleton] at hd
        subst hd
        refine ⟨.leaf cd, hcell, rfl, ?_, ?_, ?_⟩
        · exact hg.symm
        · exact (hm rfl).symm
        · exact hb.symm
      · rw [if_neg hint] at hd
        simp only [activesData, List.mem_singleton] at hd
        subst hd
        have hart : artificialSubdomainId ≠ 0 := by decide
        exact absurd hres hart
  | node cd c0 c1 c2 c3 ih0 ih1 ih2 ih3 =>
      intro p g m b hwf hcell hg hb hm d hd hres
      obtain ⟨h0, h1, h2, h3⟩ := wfCell_node hwf
      simp only [buildOverlap] at hd
      by_cases hint : intersectsAny patches (quadBBox g) = true
      · rw [if_pos hint] at hd
        have hp : p ≠ [] := by
          intro h
          rw [h] at hcell
          cases hcell
        have hbind : ∀ (k : ℕ), cellAt t (p ++ [k]) =
            (subCellAt (NativeCell.node cd c0 c1 c2 c3) [k]) := by
          intro k
          rw [cellAt_append t p [k] hp, hcell]
          rfl
        have hc0 : cellAt t (p ++ [0]) = some c0 := by rw [hbind 0]; rfl
        have hc1 : cellAt t (p ++ [1]) = some c1 := by rw [hbind 1]; rfl
        have hc2 : cellAt t (p ++ [2]) = some c2 := by rw [hbind 2]; rfl
        have hc3 : cellAt t (p ++ [3]) = some c3 := by rw [hbind 3]; rfl
        simp only [activesData, List.mem_append] at hd
        rcases hd with ((hd | hd) | hd) | hd
        · exact ih0 (p ++ [0]) (refineQuad g 0) (childMaterial m c0) (refineBdry b 0)
            h0.2.2 hc0 (by rw [hg]; exact h0.1.symm) (by rw [hb]; exact h0.2.1.symm)
            (fun hleaf => by simp [childMaterial, hleaf]) d hd hres
        · exact ih1 (p ++ [1]) (refineQuad g 1) (childMaterial m c1) (refineBdry b 1)
            h1.2.2 hc1 (by rw [hg]; exact h1.1.symm) (by rw [hb]; exact h1.2.1.symm)
            (fun hleaf => by simp [childMaterial, hleaf]) d hd hres
        · exact ih2 (p ++ [2]) (refineQuad g 2) (childMaterial m c2) (refineBdry b 2)
            h2.2.2 hc2 (by rw [hg]; exact h2.1.symm) (by rw [hb]; exact h2.2.1.symm)
            (fun hleaf => by simp [childMaterial, hleaf]) d hd hres
        · exact ih3 (p ++ [3]) (refineQuad g 3) (childMaterial m c3) (refineBdry b 3)
            h3.2.2 hc3 (by rw [hg]; exact h3.1.symm) (by rw [hb]; exact h3.2.1.symm)
            (fun hleaf => by simp [childMaterial, hleaf]) d hd hres
      · rw [if_neg hint] at hd
        simp only [activesData, List.mem_singleton] at hd
        subst hd
        have hart : artificialSubdomainId ≠ 0 := by decide
        exact absurd hres hart

/-- The seed cells of the overlap mesh: membership in the mesh list
produced by reinitModel comes from an intersecting cell on the seed
level, built with that cell's data. -/
theorem reinitModel_mem (t : NativeTria) (patches : List (Box 2))
    (mesh : List OCell) (hre : reinitModel t patches = some mesh) :
    ∃ level, ∀ root ∈ mesh, ∃ pc, pc ∈ cellsOnLevel t level ∧
      intersectsAny patches (quadBBox pc.2.cdata.geom) = true ∧
      root = buildOverlap patches pc.2 pc.1 pc.2.cdata.geom pc.2.cdata.material
        pc.2.cdata.bdry := by
  simp only [reinitModel] at hre
  cases hfind : (List.range (nLevelsTria t)).find?
      (fun l => (cellsOnLevel t l).any
        (fun pc => pc.2.isLeafB && intersectsAny patches (quadBBox pc.2.cdata.geom))) with
  | none => rw [hfind] at hre; cases hre
  | some level =>
      rw [hfind] at hre
      simp only [Option.some_inj] at hre
      refine ⟨level, ?_⟩
      intro root hroot
      rw [← hre] at hroot
      obtain ⟨pc, hmem, heq⟩ := List.mem_map.mp hroot
      have hfil := List.mem_filter.mp hmem
      exact ⟨pc, hfil.1, by simpa using hfil.2, heq.symm⟩

/-- Mesh-level form of the invariant: every resident active cell of
the overlap mesh refers back to an active native cell with identical
geometry, material id and boundary ids. -/
theorem reinit_resident_invariant (t : NativeTria) (patches : List (Box 2))
    (mesh : List OCell) (hwf : wfTria t = true)
    (hre : reinitModel t patches = some mesh) :
    ∀ d ∈ meshActives mesh, d.subdomain = 0 →
      ∃ nc, cellAt t d.native = some nc ∧ nc.isLeafB = true ∧
        nc.cdata.geom = d.geom ∧ nc.cdata.material = d.material ∧
        nc.cdata.bdry = d.bdry := by
  intro d hd hres
  obtain ⟨level, hmesh⟩ := reinitModel_mem t patches mesh hre
  obtain ⟨root, hroot, hdroot⟩ := List.mem_flatMap.mp hd
  obtain ⟨pc, hpc, _, heq⟩ := hmesh root hroot
  have hcell : cellAt t pc.1 = some pc.2 :=
    cellAt_of_mem_cellsOnLevel t level pc.1 pc.2 hpc
  have hwfc : wfCell pc.2 = true := wfCell_cellAt t pc.1 pc.2 hwf hcell
  rw [heq] at hdroot
  exact buildOverlap_invariant patches t pc.2 pc.1 pc.2.cdata.geom
    pc.2.cdata.material pc.2.cdata.bdry hwfc hcell rfl rfl (fun _ => rfl)
    d hdroot hres

/-! ## Theorems: overlap mesh fidelity (C1) -/

/-- The tolerance is nonnegative. -/
theorem vertexTol_nonneg : 0 ≤ vertexTol := by
  rw [vertexTol, Rat.mkRat_eq_div]
  positivity

/-- Equal quadrilaterals are within any nonnegative tolerance. -/
theorem quadWithin_of_eq (a c : Quad) (h : a = c) (eps : ℚ) (heps : 0 ≤ eps) :
    quadWithin a c eps := by
  subst h
  refine ⟨⟨?_, ?_⟩, ⟨?_, ?_⟩, ⟨?_, ?_⟩, ⟨?_, ?_⟩⟩ <;>
    simp only [sub_self, abs_zero] <;> exact heps

/-- C1 counterexample: the example overlap mesh is produced, yet it
has an active cell (a cell outside the region of interest, left
unrefined although its native counterpart is refined) whose native
back-reference is not an active native cell. -/
theorem overlap_cell_without_active_native :
    wfTria exTria = true ∧
    (reinitModel exTria exPatches).isSome = true ∧
    ¬ (∀ d ∈ meshActives exMesh,
        ∃ nc, cellAt exTria d.native = some nc ∧ nc.isLeafB = true ∧
          quadWithin d.geom nc.cdata.geom vertexTol ∧
          nc.cdata.material = d.material ∧ nc.cdata.bdry = d.bdry) := by
  refine ⟨by decide, by decide, ?_⟩
  intro h
  have hmem : exBadCell ∈ meshActives exMesh := by decide
  obtain ⟨nc, hcell, hleaf, _⟩ := h exBadCell hmem
  have hc : cellAt exTria exBadCell.native = some exGrandchild1 := by decide
  rw [hc] at hcell
  have heq : exGrandchild1 = nc := Option.some_inj.mp hcell
  subst heq
  exact absurd hleaf (by decide)

/-- C1 amended: for every active cell of the overlap mesh that is
resident (subdomain 0, i.e. locally owned), the native back-reference
resolves to an active native cell with the same vertex coordinates
(within 1e-12 absolute tolerance) and the same material id and face
boundary ids. -/
theorem overlap_fidelity (t : NativeTria) (patches : List (Box 2))
    (mesh : List OCell) (hwf : wfTria t = true)
    (hre : reinitModel t patches = some mesh) :
    ∀ d ∈ meshActives mesh, isCellLocallyOwned d = true →
      ∃ nc, cellAt t d.native = some nc ∧ nc.isLeafB = true ∧
        quadWithin d.geom nc.cdata.geom vertexTol ∧
        nc.cdata.material = d.material ∧ nc.cdata.bdry = d.bdry := by
  intro d hd hloc
  have hres : d.subdomain = 0 := by
    simpa [isCellLocallyOwned, overlapLocallyOwnedSubdomain] using hloc
  obtain ⟨nc, h1, h2, h3, h4, h5⟩ :=
    reinit_resident_invariant t patches mesh hwf hre d hd hres
  exact ⟨nc, h1, h2, quadWithin_of_eq _ _ h3.symm vertexTol vertexTol_nonneg, h4, h5⟩

/-- Witness for the amended C1 theorem on the example mesh. -/
theorem overlap_fidelity_witness :
    (wfTria exTria = true ∧ reinitModel exTria exPatches = some exMesh) ∧
    (∀ d ∈ meshActives exMesh, isCellLocallyOwned d = true →
      ∃ nc, cellAt exTria d.native = some nc ∧ nc.isLeafB = true ∧
        quadWithin d.geom nc.cdata.geom vertexTol ∧
        nc.cdata.material = d.material ∧ nc.cdata.bdry = d.bdry) :=
  ⟨⟨by decide, by decide⟩,
   overlap_fidelity exTria exPatches exMesh (by decide) (by decide)⟩

/-! ## Theorems: subdomain ids and the active-native-order cache (C10) -/

/-- Every cell of a constructed overlap subtree has subdomain id 0 or
artificial, and it has 0 exactly when its bounding box intersects the
region of interest. -/
theorem buildOverlap_subdomain (patches : List (Box 2)) :
    ∀ (n : NativeCell) (p : List ℕ) (g : Quad) (m : ℕ) (b : Bdry),
      ∀ d ∈ allData (buildOverlap patches n p g m b),
        (d.subdomain = 0 ∨ d.subdomain = artificialSubdomainId) ∧
        (d.subdomain = 0 ↔ intersectsAny patches (quadBBox d.geom) = true) := by
  have hart : artificialSubdomainId ≠ 0 := by decide
  intro n
  induction n with
  | leaf cd =>
      intro p g m b d hd
      simp only [buildOverlap] at hd
      by_cases hint : intersectsAny patches (quadBBox g) = true
      · rw [if_pos hint] at hd
        simp only [allData, List.mem_singleton] at hd
        subst hd
        exact ⟨Or.inl rfl, ⟨fun _ => hint, fun _ => rfl⟩⟩
      · rw [if_neg hint] at hd
        simp only [allData, List.mem_singleton] at hd
        subst hd
        exact ⟨Or.inr rfl, ⟨fun h => absurd h hart, fun h => absurd h hint⟩⟩
  | node cd c0 c1 c2 c3 ih0 ih1 ih2 ih3 =>
      intro p g m b d hd
      simp only [buildOverlap] at hd
      by_cases hint : intersectsAny patches (quadBBox g) = true
      · rw [if_pos hint] at hd
        simp only [allData, List.mem_cons, List.mem_append] at hd
        rcases hd with hd | (((hd | hd) | hd) | hd)
        · subst hd
          exact ⟨Or.inl rfl, ⟨fun _ => hint, fun _ => rfl⟩⟩
        · exact ih0 (p ++ [0]) _ _ _ d hd
        · exact ih1 (p ++ [1]) _ _ _ d hd
        · exact ih2 (p ++ [2]) _ _ _ d hd
        · exact ih3 (p ++ [3]) _ _ _ d hd
      · rw [if_neg hint] at hd
        simp only [allData, List.mem_singleton] at hd
        subst hd
        exact ⟨Or.inr rfl, ⟨fun h => absurd h hart, fun h => absurd h hint⟩⟩

/-- C10: locally_owned_subdomain() of the overlap triangulation is 0;
after reinit every cell's subdomain id is 0 or artificial, and a cell
reports is_locally_owned() exactly when its bounding box intersects
the region of interest (it is resident); the cached
cell_iterators_in_active_native_order holds exactly the resident
active cells, sorted by native active_cell_index. -/
theorem overlap_partition_and_cache (t : NativeTria) (patches : List (Box 2))
    (mesh : List OCell) (hre : reinitModel t patches = some mesh) :
    overlapLocallyOwnedSubdomain = 0 ∧
    (∀ d ∈ meshAllData mesh,
      (d.subdomain = 0 ∨ d.subdomain = artificialSubdomainId) ∧
      (isCellLocallyOwned d = true ↔
        intersectsAny patches (quadBBox d.geom) = true)) ∧
    List.Pairwise (fun x y : OData =>
        nativeActiveIndex t x.native ≤ nativeActiveIndex t y.native)
      (cellsInActiveNativeOrder t mesh) ∧
    List.Perm (cellsInActiveNativeOrder t mesh)
      ((meshActives mesh).filter (fun d => d.subdomain != artificialSubdomainId)) := by
  haveI instTot : IsTotal OData (fun x y : OData =>
      nativeActiveIndex t x.native ≤ nativeActiveIndex t y.native) :=
    ⟨fun x y => Nat.le_total _ _⟩
  haveI instTrans : IsTrans OData (fun x y : OData =>
      nativeActiveIndex t x.native ≤ nativeActiveIndex t y.native) :=
    ⟨fun _ _ _ h1 h2 => le_trans h1 h2⟩
  refine ⟨rfl, ?_, ?_, ?_⟩
  · intro d hd
    obtain ⟨level, hmesh⟩ := reinitModel_mem t patches mesh hre
    obtain ⟨root, hroot, hdroot⟩ := List.mem_flatMap.mp hd
    obtain ⟨pc, _, _, heq⟩ := hmesh root hroot
    rw [heq] at hdroot
    have h := buildOverlap_subdomain patches pc.2 pc.1 pc.2.cdata.geom
      pc.2.cdata.material pc.2.cdata.bdry d hdroot
    have hiff : isCellLocallyOwned d = true ↔ d.subdomain = 0 := by
      simp [isCellLocallyOwned, overlapLocallyOwnedSubdomain]
    exact ⟨h.1, hiff.trans h.2⟩
  · exact List.sorted_insertionSort _ _
  · exact List.perm_insertionSort _ _

/-- Witness for C10 on the example mesh. -/
theorem overlap_partition_and_cache_witness :
    reinitModel exTria exPatches = some exMesh ∧
    (overlapLocallyOwnedSubdomain = 0 ∧
      (∀ d ∈ meshAllData exMesh,
        (d.subdomain = 0 ∨ d.subdomain = artificialSubdomainId) ∧
        (isCellLocallyOwned d = true ↔
          intersectsAny exPatches (quadBBox d.geom) = true)) ∧
      List.Pairwise (fun x y : OData =>
          nativeActiveIndex exTria x.native ≤ nativeActiveIndex exTria y.native)
        (cellsInActiveNativeOrder exTria exMesh) ∧
      List.Perm (cellsInActiveNativeOrder exTria exMesh)
        ((meshActives exMesh).filter
          (fun d => d.subdomain != artificialSubdomainId))) :=
  ⟨by decide, overlap_partition_and_cache exTria exPatches exMesh (by decide)⟩

/-! ## Theorems: request lists of step 1 (C7) -/

/-- Paths in the per-cell level list have length equal to the level. -/
theorem length_of_mem_subPathsOnLevel :
    ∀ (l : ℕ) (n : NativeCell) (q : List ℕ) (c : NativeCell),
      (q, c) ∈ subPathsOnLevel n l → q.length = l := by
  intro l
  induction l with
  | zero =>
      intro n q c h
      simp only [subPathsOnLevel, List.mem_singleton, Prod.mk.injEq] at h
      rw [h.1]
      rfl
  | succ l ih =>
      intro n q c h
      rcases n with d | ⟨d, c0, c1, c2, c3⟩
      · simp [subPathsOnLevel] at h
      · simp only [subPathsOnLevel, List.mem_append, List.mem_map, Prod.mk.injEq] at h
        rcases h with ((⟨⟨q0, c9⟩, hm, hq, hc⟩ | ⟨⟨q0, c9⟩, hm, hq, hc⟩) |
            ⟨⟨q0, c9⟩, hm, hq, hc⟩) | ⟨⟨q0, c9⟩, hm, hq, hc⟩ <;>
          subst hq <;> simp [ih _ _ _ hm]

/-- Paths in the per-cell level list are pairwise distinct. -/
theorem pairwise_subPathsOnLevel :
    ∀ (l : ℕ) (n : NativeCell),
      List.Pairwise (fun x y : List ℕ × NativeCell => x.1 ≠ y.1)
        (subPathsOnLevel n l) := by
  intro l
  induction l with
  | zero =>
      intro n
      simp [subPathsOnLevel]
  | succ l ih =>
      intro n
      rcases n with d | ⟨d, c0, c1, c2, c3⟩
      · simp [subPathsOnLevel]
      · have hpart : ∀ (k : ℕ) (c : NativeCell),
            List.Pairwise (fun x y : List ℕ × NativeCell => x.1 ≠ y.1)
              ((subPathsOnLevel c l).map (fun pc => (k :: pc.1, pc.2))) := by
          intro k c
          rw [List.pairwise_map]
          exact (ih c).imp (fun h => by simpa using h)
        have hhead : ∀ (k : ℕ) (c : NativeCell) x,
            x ∈ (subPathsOnLevel c l).map (fun pc => (k :: pc.1, pc.2)) →
            ∃ q, x.1 = k :: q := by
          intro k c x hx
          obtain ⟨pc, _, hpc⟩ := List.mem_map.mp hx
          exact ⟨pc.1, by rw [← hpc]⟩
        have hcross : ∀ (j k : ℕ), j ≠ k → ∀ (cj ck : NativeCell) x y,
            x ∈ (subPathsOnLevel cj l).map (fun pc => (j :: pc.1, pc.2)) →
            y ∈ (subPathsOnLevel ck l).map (fun pc => (k :: pc.1, pc.2)) →
            x.1 ≠ y.1 := by
          intro j k hjk cj ck x y hx hy
          obtain ⟨qx, hqx⟩ := hhead j cj x hx
          obtain ⟨qy, hqy⟩ := hhead k ck y hy
          rw [hqx, hqy]
          intro heq
          exact hjk (List.cons.injEq .. ▸ heq).1
        simp only [subPathsOnLevel]
        rw [List.pairwise_append]
        refine ⟨?_, ?_, ?_⟩
        · rw [List.pairwise_append]
          refine ⟨?_, ?_, ?_⟩
          · rw [List.pairwise_append]
            exact ⟨hpart 0 c0, hpart 1 c1,
              fun x hx y hy => hcross 0 1 (by decide) c0 c1 x y hx hy⟩
          · exact hpart 2 c2
          · intro x hx y hy
            rcases List.mem_append.mp hx with hx | hx
            · exact hcross 0 2 (by decide) c0 c2 x y hx hy
            · exact hcross 1 2 (by decide) c1 c2 x y hx hy
        · exact hpart 3 c3
        · intro x hx y hy
          rcases List.mem_append.mp hx with hx2 | hx2
          · rcases List.mem_append.mp hx2 with hx3 | hx3
            · exact hcross 0 3 (by decide) c0 c3 x y hx3 hy
            · exact hcross 1 3 (by decide) c1 c3 x y hx3 hy
          · exact hcross 2 3 (by decide) c2 c3 x y hx2 hy

/-- Paths on one level of the triangulation have length level + 1. -/
theorem length_of_mem_cellsOnLevel (t : NativeTria) (l : ℕ) (p : List ℕ)
    (c : NativeCell) (h : (p, c) ∈ cellsOnLevel t l) : p.length = l + 1 := by
  obtain ⟨j, q, n, hp, _, hmem⟩ := shape_of_mem_cellsOnLevelAux t 0 l p c h
  rw [hp]
  simp [length_of_mem_subPathsOnLevel l n q c hmem]

/-- Paths on one level of the triangulation are pairwise distinct. -/
theorem pairwise_cellsOnLevelAux :
    ∀ (ts : List NativeCell) (i l : ℕ),
      List.Pairwise (fun x y : List ℕ × NativeCell => x.1 ≠ y.1)
        (cellsOnLevelAux ts i l) := by
  intro ts
  induction ts with
  | nil => intro i l; simp [cellsOnLevelAux]
  | cons m rest ih =>
      intro i l
      simp only [cellsOnLevelAux]
      rw [List.pairwise_append]
      refine ⟨?_, ih (i + 1) l, ?_⟩
      · rw [List.pairwise_map]
        exact (pairwise_subPathsOnLevel l m).imp (fun h => by simpa using h)
      · intro x hx y hy
        obtain ⟨pc, _, hpc⟩ := List.mem_map.mp hx
        obtain ⟨j, q, n, hy1, _, _⟩ :=
          shape_of_mem_cellsOnLevelAux rest (i + 1) l y.1 y.2 (by simpa using hy)
        rw [← hpc, hy1]
        intro heq
        have := (List.cons.injEq .. ▸ heq).1
        omega

/-- Native references inside a constructed overlap subtree extend the
root path, and distinct active cells hold distinct native
references. -/
theorem buildOverlap_natives (patches : List (Box 2)) :
    ∀ (n : NativeCell) (p : List ℕ) (g : Quad) (m : ℕ) (b : Bdry),
      (∀ d ∈ activesData (buildOverlap patches n p g m b), ∃ s, d.native = p ++ s) ∧
      List.Pairwise (fun x y : OData => x.native ≠ y.native)
        (activesData (buildOverlap patches n p g m b)) := by
  intro n
  induction n with
  | leaf cd =>
      intro p g m b
      simp only [buildOverlap]
      by_cases hint : intersectsAny patches (quadBBox g) = true
      · rw [if_pos hint]
        exact ⟨fun d hd => by
          simp only [activesData, List.mem_singleton] at hd
          exact ⟨[], by rw [hd, List.append_nil]⟩, by simp [activesData]⟩
      · rw [if_neg hint]
        exact ⟨fun d hd => by
          simp only [activesData, List.mem_singleton] at hd
          exact ⟨[], by rw [hd, List.append_nil]⟩, by simp [activesData]⟩
  | node cd c0 c1 c2 c3 ih0 ih1 ih2 ih3 =>
      intro p g m b
      simp only [buildOverlap]
      by_cases hint : intersectsAny patches (quadBBox g) = true
      · rw [if_pos hint]
        have hpre0 : ∀ d ∈ activesData (buildOverlap patches c0 (p ++ [0])
            (refineQuad g 0) (childMaterial m c0) (refineBdry b 0)),
            ∃ s, d.native = p ++ 0 :: s := by
          intro d hd
          obtain ⟨s, hs⟩ := (ih0 (p ++ [0]) (refineQuad g 0) (childMaterial m c0)
            (refineBdry b 0)).1 d hd
          exact ⟨s, by rw [hs, List.append_assoc]; rfl⟩
        have hpre1 : ∀ d ∈ activesData (buildOverlap patches c1 (p ++ [1])
            (refineQuad g 1) (childMaterial m c1) (refineBdry b 1)),
            ∃ s, d.native = p ++ 1 :: s := by
          intro d hd
          obtain ⟨s, hs⟩ := (ih1 (p ++ [1]) (refineQuad g 1) (childMaterial m c1)
            (refineBdry b 1)).1 d hd
          exact ⟨s, by rw [hs, List.append_assoc]; rfl⟩
        have hpre2 : ∀ d ∈ activesData (buildOverlap patches c2 (p ++ [2])
            (refineQuad g 2) (childMaterial m c2) (refineBdry b 2)),
            ∃ s, d.native = p ++ 2 :: s := by
          intro d hd
          obtain ⟨s, hs⟩ := (ih2 (p ++ [2]) (refineQuad g 2) (childMaterial m c2)
            (refineBdry b 2)).1 d hd
          exact ⟨s, by rw [hs, List.append_assoc]; rfl⟩
        have hpre3 : ∀ d ∈ activesData (buildOverlap patches c3 (p ++ [3])
            (refineQuad g 3) (childMaterial m c3) (refineBdry b 3)),
            ∃ s, d.native = p ++ 3 :: s := by
          intro d hd
          obtain ⟨s, hs⟩ := (ih3 (p ++ [3]) (refineQuad g 3) (childMaterial m c3)
            (refineBdry b 3)).1 d hd
          exact ⟨s, by rw [hs, List.append_assoc]; rfl⟩
        have hcross : ∀ (j k : ℕ), j ≠ k → ∀ (x y : OData) sx sy,
            x.native = p ++ j :: sx → y.native = p ++ k :: sy →
            x.native ≠ y.native := by
          intro j k hjk x y sx sy hx hy
          rw [hx, hy]
          intro heq
          have h2 := List.append_cancel_left heq
          exact hjk (List.cons.injEq .. ▸ h2).1
        constructor
        · intro d hd
          simp only [activesData, List.mem_append] at hd
          rcases hd with ((hd | hd) | hd) | hd
          · obtain ⟨s, hs⟩ := hpre0 d hd
            exact ⟨0 :: s, hs⟩
          · obtain ⟨s, hs⟩ := hpre1 d hd
            exact ⟨1 :: s, hs⟩
          · obtain ⟨s, hs⟩ := hpre2 d hd
            exact ⟨2 :: s, hs⟩
          · obtain ⟨s, hs⟩ := hpre3 d hd
            exact ⟨3 :: s, hs⟩
        · simp only [activesData]
          rw [List.pairwise_append]
          refine ⟨?_, ?_, ?_⟩
          · rw [List.pairwise_append]
            refine ⟨?_, ?_, ?_⟩
            · rw [List.pairwise_append]
              refine ⟨(ih0 _ _ _ _).2, (ih1 _ _ _ _).2, ?_⟩
              · intro x hx y hy
                obtain ⟨sx, hsx⟩ := hpre0 x hx
                obtain ⟨sy, hsy⟩ := hpre1 y hy
                exact hcross 0 1 (by decide) x y sx sy hsx hsy
            · exact (ih2 _ _ _ _).2
            · intro x hx y hy
              obtain ⟨sy, hsy⟩ := hpre2 y hy
              rcases List.mem_append.mp hx with hx | hx
              · obtain ⟨sx, hsx⟩ := hpre0 x hx
                exact hcross 0 2 (by decide) x y sx sy hsx hsy
              · obtain ⟨sx, hsx⟩ := hpre1 x hx
                exact hcross 1 2 (by decide) x y sx sy hsx hsy
          · exact (ih3 _ _ _ _).2
          · intro x hx y hy
            obtain ⟨sy, hsy⟩ := hpre3 y hy
            rcases List.mem_append.mp hx with hx2 | hx2
            · rcases List.mem_append.mp hx2 with hx3 | hx3
              · obtain ⟨sx, hsx⟩ := hpre0 x hx3
                exact hcross 0 3 (by decide) x y sx sy hsx hsy
              · obtain ⟨sx, hsx⟩ := hpre1 x hx3
                exact hcross 1 3 (by decide) x y sx sy hsx hsy
            · obtain ⟨sx, hsx⟩ := hpre2 x hx2
              exact hcross 2 3 (by decide) x y sx sy hsx hsy
      · rw [if_neg hint]
        exact ⟨fun d hd => by
          simp only [activesData, List.mem_singleton] at hd
          exact ⟨[], by rw [hd, List.append_nil]⟩, by simp [activesData]⟩

/-- indexOf is injective on members of a list. -/
theorem indexOf_mem_inj {α : Type} [BEq α] [LawfulBEq α] :
    ∀ (l : List α) (x y : α), x ∈ l → y ∈ l →
      l.indexOf x = l.indexOf y → x = y := by
  intro l
  induction l with
  | nil => intro x y hx _ _; cases hx
  | cons a l ih =>
      intro x y hx hy h
      simp only [List.indexOf_cons] at h
      cases h1 : a == x <;> cases h2 : a == y <;> rw [h1, h2] at h
      · have hax : a ≠ x := fun he => by rw [he] at h1; simp at h1
        have hay : a ≠ y := fun he => by rw [he] at h2; simp at h2
        refine ih x y ?_ ?_ (by simpa using h)
        · rcases List.mem_cons.mp hx with h3 | h3
          · exact absurd h3.symm hax
          · exact h3
        · rcases List.mem_cons.mp hy with h3 | h3
          · exact absurd h3.symm hay
          · exact h3
      · simp at h
      · simp at h
      · rw [← eq_of_beq h1, ← eq_of_beq h2]

/-- Active cells built from distinct equal-length seed paths hold
pairwise distinct native references. -/
theorem seeds_actives_pairwise (patches : List (Box 2)) (len : ℕ) :
    ∀ (S : List (List ℕ × NativeCell)),
      List.Pairwise (fun x y : List ℕ × NativeCell => x.1 ≠ y.1) S →
      (∀ pc ∈ S, pc.1.length = len) →
      List.Pairwise (fun x y : OData => x.native ≠ y.native)
        (S.flatMap (fun pc => activesData (buildOverlap patches pc.2 pc.1
          pc.2.cdata.geom pc.2.cdata.material pc.2.cdata.bdry))) := by
  intro S
  induction S with
  | nil => intro _ _; simp
  | cons pc rest ih =>
      intro hpw hlen
      rw [List.flatMap_cons, List.pairwise_append]
      refine ⟨(buildOverlap_natives patches pc.2 pc.1 _ _ _).2,
        ih (List.pairwise_cons.mp hpw).2
          (fun x hx => hlen x (List.mem_cons_of_mem pc hx)), ?_⟩
      intro x hx y hy
      obtain ⟨sx, hsx⟩ := (buildOverlap_natives patches pc.2 pc.1 _ _ _).1 x hx
      obtain ⟨pc2, hpc2, hy2⟩ := List.mem_flatMap.mp hy
      obtain ⟨sy, hsy⟩ := (buildOverlap_natives patches pc2.2 pc2.1 _ _ _).1 y hy2
      rw [hsx, hsy]
      intro heq
      have hne : pc.1 ≠ pc2.1 := (List.pairwise_cons.mp hpw).1 pc2 hpc2
      have hl1 : pc.1.length = len := hlen pc (List.mem_cons_self pc rest)
      have hl2 : pc2.1.length = len := hlen pc2 (List.mem_cons_of_mem pc hpc2)
      exact hne (List.append_inj_left heq (by rw [hl1, hl2]))

/-- The active cells of the overlap mesh hold pairwise distinct native
references: each native cell is mirrored by at most one active overlap
cell. -/
theorem reinit_natives_pairwise (t : NativeTria) (patches : List (Box 2))
    (mesh : List OCell) (hre : reinitModel t patches = some mesh) :
    List.Pairwise (fun x y : OData => x.native ≠ y.native) (meshActives mesh) := by
  simp only [reinitModel] at hre
  cases hfind : (List.range (nLevelsTria t)).find?
      (fun l => (cellsOnLevel t l).any
        (fun pc => pc.2.isLeafB && intersectsAny patches (quadBBox pc.2.cdata.geom))) with
  | none => rw [hfind] at hre; cases hre
  | some level =>
      rw [hfind] at hre
      simp only [Option.some_inj] at hre
      rw [meshActives, ← hre, List.flatMap_map]
      apply seeds_actives_pairwise patches (level + 1)
      · exact (pairwise_cellsOnLevelAux t 0 level).sublist (List.filter_sublist _)
      · intro pc hpc
        exact length_of_mem_cellsOnLevel t level pc.1 pc.2
          (List.mem_of_mem_filter hpc)

/-- C7: after reinit of the overlap mesh, each per-owner request list
of native active-cell indices, as built and sorted by step 1 of the
DOF-translation protocol, is sorted in increasing order and contains
no index twice. -/
theorem requests_sorted_nodup (t : NativeTria) (patches : List (Box 2))
    (mesh : List OCell) (hwf : wfTria t = true)
    (hre : reinitModel t patches = some mesh) :
    ∀ owner, List.Sorted (· ≤ ·)
        (requestsForOwner (residentCellRequests t mesh) owner) ∧
      (requestsForOwner (residentCellRequests t mesh) owner).Nodup := by
  intro owner
  refine ⟨List.sorted_insertionSort _ _, ?_⟩
  rw [requestsForOwner]
  apply (List.Perm.nodup_iff (List.perm_insertionSort _ _)).mpr
  rw [residentCellRequests, List.filter_map, List.map_map]
  set A := (meshActives mesh).filter (fun d => isCellLocallyOwned d) with hA
  have hApw : List.Pairwise (fun x y : OData => x.native ≠ y.native) A :=
    (reinit_natives_pairwise t patches mesh hre).sublist (List.filter_sublist _)
  have hAresident : ∀ d ∈ A, d.subdomain = 0 := by
    intro d hd
    have := (List.mem_filter.mp hd).2
    simpa [isCellLocallyOwned, overlapLocallyOwnedSubdomain] using this
  have hAactive : ∀ d ∈ A, d.native ∈ activePaths t := by
    intro d hd
    obtain ⟨nc, hcell, hleaf, _⟩ := reinit_resident_invariant t patches mesh hwf hre
      d (List.mem_of_mem_filter hd) (hAresident d hd)
    exact mem_activePaths t d.native nc hcell hleaf
  set B := A.filter (fun d =>
    (fun rc : ℕ × ℕ => rc.1 == owner)
      ((fun d : OData => (((cellAt t d.native).map (fun n => n.cdata.owner)).getD 0,
        nativeActiveIndex t d.native)) d)) with hB
  have hBsub : List.Sublist B A := List.filter_sublist _
  have hBpw : List.Pairwise (fun x y : OData => x.native ≠ y.native) B :=
    hApw.sublist hBsub
  have hBnodup : B.Nodup :=
    hBpw.imp (fun h => fun heq => h (congrArg OData.native heq))
  have hsymm : Symmetric (fun x y : OData => x.native ≠ y.native) :=
    fun x y h => fun heq => h heq.symm
  apply List.Nodup.map_on ?_ hBnodup
  intro x hx y hy hxy
  by_contra hne
  have hnat : x.native ≠ y.native := List.Pairwise.forall hsymm hBpw hx hy hne
  have hidx : nativeActiveIndex t x.native = nativeActiveIndex t y.native := by
    simpa using hxy
  rw [nativeActiveIndex, nativeActiveIndex] at hidx
  exact hnat (indexOf_mem_inj (activePaths t) x.native y.native
    (hAactive x (hBsub.subset hx)) (hAactive y (hBsub.subset hy)) hidx)

/-- Witness for C7 on the example mesh. -/
theorem requests_sorted_nodup_witness :
    (wfTria exTria = true ∧ reinitModel exTria exPatches = some exMesh) ∧
    (∀ owner, List.Sorted (· ≤ ·)
        (requestsForOwner (residentCellRequests exTria exMesh) owner) ∧
      (requestsForOwner (residentCellRequests exTria exMesh) owner).Nodup) :=
  ⟨⟨by decide, by decide⟩,
   requests_sorted_nodup exTria exPatches exMesh (by decide) (by decide)⟩

end Fdl
